import Mathlib

/-!
Verification of the llparse compiler-backend core: the resumable `execute`
entry point built by `ExecuteBuilder` (bitcode backend), the `Pause` node,
the `TableLookup` node of the JS backend, and the interning pools of the JS
`Compilation` context (callback code map and blob map).

The state-record protocol (lingering-error check, span restart, dispatch,
span finalize) is embedded from
`src/node_modules/llparse/src/implementation/bitcode/helpers/execute-builder.ts`.
The dispatch phase itself (the compiled automaton driven over the input
bytes) is not part of the sources; it is modelled from the spec as a
byte-at-a-time automaton: at each consumed byte a node may do nothing,
invoke a callback, open a span, close a span, or stop with an error/pause
outcome.  Node identity encodes any resumable progress (e.g. a sequence
matcher cursor), so resumption is exactly "continue from the persisted
current node".
-/

namespace LLParse

/-- An observable callback invocation: either a plain (match/value) callback
fired during dispatch at a position, or a span callback fired over a byte
range `[s, e)` for the span with the given index. -/
inductive Ev where
  | invoke (cb : String) (pos : Nat)
  | span (idx : Nat) (cb : String) (s e : Nat)
deriving DecidableEq

/-- Modelled from the spec: the per-byte behaviour of a compiled automaton
node.  `move` consumes the byte silently, `invoke` fires a match callback,
`spanStart`/`spanEnd` open and close a span slot, `err`/`pause` are the
Error and Pause nodes (both persist their code/reason, a Pause additionally
persists its resume target; see `Pause.doBuild`). -/
inductive Action where
  | move
  | invoke (cb : String)
  | spanStart (i : Nat)
  | spanEnd (i : Nat) (cb : String)
  | err (code : Nat) (reason : String)
  | pause (code : Nat) (reason : String)

/-- Modelled from the spec: a compiled automaton maps (current node, input
byte) to an action plus the next node. -/
abbrev Automaton := Nat → Nat → Action × Nat

/-- A span descriptor (frontend `SpanField`): its ordered candidate
callbacks.  The span's index is its position in the span list. -/
structure SpanDef where
  callbacks : List String
deriving DecidableEq

/-- The State Record: error code / reason / error offset, persisted resume
node, per-span start slots (`none` = inactive) and per-span resolved
callback slots. -/
structure StateRecord where
  error : Nat
  reason : String
  errorOff : Nat
  current : Nat
  spanStart : List (Option Nat)
  spanCb : List String
deriving DecidableEq

/-- The environment of span callbacks: name, start, endPos ↦ return code. -/
abbrev CbEnv := String → Nat → Nat → Nat

/-- Outcome of the dispatch phase: either all input consumed with a resume
node, or a failure (error or pause) with code, reason, offset, and (for a
pause) the persisted resume target. -/
inductive RunResult where
  | done (resume : Nat)
  | failed (code : Nat) (reason : String) (off : Nat) (resume : Option Nat)
deriving DecidableEq

/-- Result of driving the automaton over a chunk: events fired, final span
slots, outcome, and a well-formedness flag that is `false` iff some span
was re-opened while already active (impossible for graphs produced by the
frontend, which rejects overlapping spans). -/
structure RunOut where
  events : List Ev
  slots : List (Option Nat)
  result : RunResult
  wf : Bool
deriving DecidableEq

/-- The value of span slot `i`: `some u` when the slot is active with
start `u`, `none` when inactive (or out of range). -/
def slotVal (slots : List (Option Nat)) (i : Nat) : Option Nat :=
  (slots[i]?).getD none

/-- Is slot `i` active? -/
def slotActive (slots : List (Option Nat)) (i : Nat) : Bool :=
  (slotVal slots i).isSome

/-- Modelled from the spec: the dispatch phase.  Drives the automaton from
node `n` over the bytes of the current chunk, starting at absolute
position `pos`, updating the span slots and collecting callback events,
until the chunk is exhausted or an error/pause node is hit. -/
def run (aut : Automaton) : Nat → List (Option Nat) → Nat → List Nat → RunOut
  | n, slots, _, [] => ⟨[], slots, .done n, true⟩
  | n, slots, pos, b :: rest =>
    match aut n b with
    | (.move, next) => run aut next slots (pos + 1) rest
    | (.invoke cb, next) =>
      let o := run aut next slots (pos + 1) rest
      { o with events := .invoke cb pos :: o.events }
    | (.spanStart i, next) =>
      let o := run aut next (slots.set i (some pos)) (pos + 1) rest
      { o with wf := !slotActive slots i && o.wf }
    | (.spanEnd i cb, next) =>
      match slotVal slots i with
      | some s =>
        let o := run aut next (slots.set i none) (pos + 1) rest
        { o with events := .span i cb s pos :: o.events }
      | none => run aut next slots (pos + 1) rest
    | (.err c rs, _) => ⟨[], slots, .failed c rs pos none, true⟩
    | (.pause c rs, next) => ⟨[], slots, .failed c rs pos (some next), true⟩

/-- `ExecuteBuilder.restartSpans`: for each span (in span order), if its
start slot is active, store the current call's starting position into it;
inactive slots are left alone.  `idx` is the index of the first span of
the remaining list. -/
def restartFrom (pos : Nat) : Nat → List SpanDef → List (Option Nat) → List (Option Nat)
  | _, [], slots => slots
  | idx, _ :: rest, slots =>
    if slotActive slots idx then restartFrom pos (idx + 1) rest (slots.set idx (some pos))
    else restartFrom pos (idx + 1) rest slots

/-- All spans' restart step, from span index 0. -/
def restartSpans (spans : List SpanDef) (slots : List (Option Nat)) (pos : Nat) :
    List (Option Nat) :=
  restartFrom pos 0 spans slots

/-- `ExecuteBuilder.executeSpans` callback choice: with exactly one
candidate the callback is static, otherwise it is loaded from the record's
span-callback slot. -/
def resolvedCb (sp : SpanDef) (spanCb : List String) (i : Nat) : String :=
  match sp.callbacks with
  | [cb] => cb
  | _ => (spanCb[i]?).getD ""

/-- `ExecuteBuilder.executeSpans`: for each span (in span order) whose
start slot is active, invoke its resolved callback over
`[start, endPos)`; a nonzero return stops the walk and becomes the error
code.  Note the source stores nothing back into the span slots. -/
def executeSpansFrom (cbs : CbEnv) (spanCb : List String) (slots : List (Option Nat))
    (endPos : Nat) : Nat → List SpanDef → List Ev × Nat
  | _, [] => ([], 0)
  | i, sp :: rest =>
    match slotVal slots i with
    | some s =>
      let cb := resolvedCb sp spanCb i
      let ret := cbs cb s endPos
      if ret = 0 then
        let o := executeSpansFrom cbs spanCb slots endPos (i + 1) rest
        (.span i cb s endPos :: o.1, o.2)
      else ([.span i cb s endPos], ret)
    | none => executeSpansFrom cbs spanCb slots endPos (i + 1) rest

/-- All spans' finalize step, from span index 0. -/
def executeSpans (cbs : CbEnv) (spans : List SpanDef) (spanCb : List String)
    (slots : List (Option Nat)) (endPos : Nat) : List Ev × Nat :=
  executeSpansFrom cbs spanCb slots endPos 0 spans

/-- `ExecuteBuilder.build`, after the lingering-error check and the span
restart: load the current node, dispatch over the chunk; on success store
the resume node and finalize the spans (`buildError` persisting a nonzero
finalize code with offset `endPos`); on failure return the persisted
error code with no finalize step. -/
def afterDispatch (cbs : CbEnv) (spans : List SpanDef) (st : StateRecord)
    (endPos : Nat) (o : RunOut) : StateRecord × Nat × List Ev :=
  match o.result with
  | .failed c rs off resume =>
    ({ st with error := c, reason := rs, errorOff := off,
               current := resume.getD st.current, spanStart := o.slots }, c, o.events)
  | .done resume =>
    let f := executeSpans cbs spans st.spanCb o.slots endPos
    if f.2 = 0 then
      ({ st with current := resume, spanStart := o.slots }, 0, o.events ++ f.1)
    else
      ({ st with current := resume, spanStart := o.slots,
                 error := f.2, errorOff := endPos }, f.2, o.events ++ f.1)

/-- See `afterDispatch` for everything following the dispatch call. -/
def executeTail (aut : Automaton) (cbs : CbEnv) (spans : List SpanDef)
    (st : StateRecord) (pos : Nat) (buf : List Nat) : StateRecord × Nat × List Ev :=
  afterDispatch cbs spans st (pos + buf.length)
    (run aut st.current st.spanStart pos buf)

/-- `ExecuteBuilder.build`: the compiled `llparse_execute` entry point.
Returns the new state record, the status code (0 = Ok), and the ordered
sequence of callback invocations. -/
def execute (aut : Automaton) (cbs : CbEnv) (spans : List SpanDef)
    (st : StateRecord) (pos : Nat) (buf : List Nat) : StateRecord × Nat × List Ev :=
  if st.error ≠ 0 then (st, st.error, [])
  else executeTail aut cbs spans
    { st with spanStart := restartSpans spans st.spanStart pos } pos buf

/-- The dispatch phase exactly as `execute` performs it on an error-free
record: from the persisted current node, over the restarted slots. -/
def dispatchOf (aut : Automaton) (spans : List SpanDef) (st : StateRecord)
    (pos : Nat) (buf : List Nat) : RunOut :=
  run aut st.current (restartSpans spans st.spanStart pos) pos buf

/-- Feeding a list of contiguous chunks through successive `execute` calls
on one state record, collecting all callback invocations in order. -/
def executeChunks (aut : Automaton) (cbs : CbEnv) (spans : List SpanDef) :
    StateRecord → Nat → List (List Nat) → StateRecord × List Ev
  | st, _, [] => (st, [])
  | st, pos, c :: cs =>
    let o := execute aut cbs spans st pos c
    let o2 := executeChunks aut cbs spans o.1 (pos + c.length) cs
    (o2.1, o.2.2 ++ o2.2)

/-- Did the dispatch phase consume the whole chunk? -/
def RunResult.isDone : RunResult → Bool
  | .done _ => true
  | .failed .. => false

/-- The subsequence of non-span (match/value) callback invocations. -/
def invokesOf (evs : List Ev) : List Ev :=
  evs.filter fun e =>
    match e with
    | .invoke .. => true
    | .span .. => false

/-- The half-open byte range `[s, e)` as the list of its positions. -/
def erange (s e : Nat) : List Nat := List.range' s (e - s)

/-- The positions covered, in invocation order, by the callbacks of span
`i` in an event list. -/
def spanCov (i : Nat) : List Ev → List Nat
  | [] => []
  | .span j _ s e :: rest =>
    if j = i then erange s e ++ spanCov i rest else spanCov i rest
  | .invoke _ _ :: rest => spanCov i rest

/-- The positions span `i` would still cover up to `e` if finalized now:
empty when the slot is inactive. -/
def pend (slots : List (Option Nat)) (i e : Nat) : List Nat :=
  match slotVal slots i with
  | some u => erange u e
  | none => []

/-- The coverage a chunked run has already emitted beyond what the
unchunked run has, for each span: the range between the unchunked run's
slot value and the chunked run's (rebased) slot value. -/
def gap (s t : List (Option Nat)) (i : Nat) : List Nat :=
  match slotVal s i, slotVal t i with
  | some u, some v => erange u v
  | _, _ => []

/-- Relation between the unchunked run's span slots `s` and the chunked
run's span slots `t` at position `p`: pointwise either equal, or both
active with the chunked start rebased forward (but not past `p`). -/
def SlotsRel (p : Nat) (s t : List (Option Nat)) : Prop :=
  s.length = t.length ∧
  ∀ i : Nat, slotVal s i = slotVal t i ∨
    ∃ u v, slotVal s i = some u ∧ slotVal t i = some v ∧ u ≤ v ∧ v ≤ p

/-- All slot values are bounded by `p`. -/
def SlotsLe (p : Nat) (s : List (Option Nat)) : Prop :=
  ∀ (i u : Nat), slotVal s i = some u → u ≤ p

/-- Sequential composition of dispatch outcomes: dispatching over
`xs ++ ys` is dispatching over `xs` and, if that completed, continuing
over `ys` from the recorded resume node and slots. -/
def seqOut (o : RunOut) (f : Nat → List (Option Nat) → RunOut) : RunOut :=
  match o.result with
  | .done n1 =>
    let o2 := f n1 o.slots
    ⟨o.events ++ o2.events, o2.slots, o2.result, o.wf && o2.wf⟩
  | .failed .. => o

/-- Relation between the slots the unchunked run continues with (`s`) and
the chunked record's persisted slots (`t`) at a chunk boundary `p`: same
length, same activity everywhere, equal beyond the span list, and the
unchunked values of real spans bounded by `p`. -/
def EntryRel (len p : Nat) (s t : List (Option Nat)) : Prop :=
  s.length = t.length ∧
  (∀ i : Nat, (slotVal s i).isSome = (slotVal t i).isSome) ∧
  (∀ i : Nat, len ≤ i → slotVal s i = slotVal t i) ∧
  (∀ (i u : Nat), i < len → slotVal s i = some u → u ≤ p)

/- The JS backend: `TableLookup` and the `Compilation` interning pools. -/

/-- Size of the dense dispatch table: `MAX_CHAR + 1` entries. -/
def tableSize : Nat := 256

/-- `TableLookup.buildTable`, inner loop: claim every key of the edge with
index `idx` (stored 1-based as `idx + 1`).  Each key must currently map to
0 (`assert.strictEqual(table[key], 0)`); on violation the assertion aborts
and the partial table at that point is the error state.  A key outside the
table also fails the assertion (in JS, `table[key]` is `undefined`). -/
def writeKeys (idx : Nat) : List Nat → List Nat → Except (List Nat) (List Nat)
  | [], t => .ok t
  | k :: rest, t =>
    match t[k]? with
    | some 0 => writeKeys idx rest (t.set k (idx + 1))
    | _ => .error t

/-- `TableLookup.buildTable`, outer loop over the edges. -/
def buildTableGo : Nat → List (List Nat) → List Nat → Except (List Nat) (List Nat)
  | _, [], t => .ok t
  | idx, keys :: rest, t =>
    match writeKeys idx keys t with
    | .ok t2 => buildTableGo (idx + 1) rest t2
    | .error t2 => .error t2

/-- `TableLookup.buildTable`: a dense 256-entry table, 0-filled, mapping
each byte of edge `i`'s key set to `i + 1`. -/
def buildTable (edges : List (List Nat)) : Except (List Nat) (List Nat) :=
  buildTableGo 0 edges (List.replicate tableSize 0)

/-- The table state whether construction succeeded or aborted. -/
def tableOf : Except (List Nat) (List Nat) → List Nat
  | .ok t => t
  | .error t => t

/-- The dispatch `TableLookup.doBuild` emits: a switch on the table value,
`case i + 1` tail-calls edge `i`'s target and `default` (value 0, or any
value with no matching case) tail-calls the otherwise target. -/
def tableRoute (targets : List Nat) (ow : Nat) (v : Nat) : Nat :=
  match v with
  | 0 => ow
  | w + 1 => (targets[w]?).getD ow

/-- A `Code` object of the JS backend: `id` models JS object identity
(`assert.strictEqual` compares references; distinct objects carry distinct
ids), `name` and `signature` are `code.ref.name` / `code.ref.signature`. -/
structure CodeObj where
  id : Nat
  name : String
  signature : String
deriving DecidableEq

/-- The `codeMap : Map<string, Code>` of `Compilation`: an assoc list in
insertion order, keyed by name. -/
abbrev CodeMap := List (String × CodeObj)

/-- `Compilation.buildCode`: intern by name.  A hit must be the identical
object (`assert.strictEqual`), otherwise compilation aborts with a fatal
name-conflict error; a miss registers the object.  Returns the reference
string `this._<name>`. -/
def buildCode (m : CodeMap) (c : CodeObj) : Except String (CodeMap × String) :=
  match m.lookup c.name with
  | some c2 =>
    if c2 = c then .ok (m, "this._" ++ c.name)
    else .error ("Code name conflict for " ++ c.name)
  | none => .ok (m ++ [(c.name, c)], "this._" ++ c.name)

/-- `Compilation.buildMethods`: one method is emitted per `codeMap` entry,
in insertion order; modelled by the emitted names. -/
def buildMethods (m : CodeMap) : List String :=
  m.map fun p => p.1

/-- A `Buffer` object: `id` models JS object identity — the `blobs` map is
keyed by the Buffer object itself, not by its contents. -/
structure Buf where
  id : Nat
  content : List Nat
deriving DecidableEq

/-- The `blobs : Map<Buffer, string>` of `Compilation`, insertion-ordered. -/
abbrev BlobMap := List (Buf × String)

/-- The generated blob name, `BLOB_PREFIX + this.blobs.size` (the numeric
size is coerced to its decimal string). -/
def blobName (sz : Nat) : String := "blob_" ++ Nat.repr sz

/-- `Compilation.blob`: intern by Buffer identity; a miss appends a new
entry named after the current map size. -/
def blob (m : BlobMap) (b : Buf) : BlobMap × String :=
  match m.lookup b with
  | some name => (m, name)
  | none => (m ++ [(b, blobName m.length)], blobName m.length)

/-- `Compilation.buildBlobs`: one artifact (generated name plus the byte
contents rendered as hex lines) per blob entry, in insertion order. -/
def buildBlobs (m : BlobMap) : List (String × List Nat) :=
  m.map fun p => (p.2, p.1.content)

/-- Decimal digit value of a digit character, for reading `Nat.repr` back. -/
def digitVal (c : Char) : Nat :=
  if c = '0' then 0 else if c = '1' then 1 else if c = '2' then 2 else
  if c = '3' then 3 else if c = '4' then 4 else if c = '5' then 5 else
  if c = '6' then 6 else if c = '7' then 7 else if c = '8' then 8 else 9

/-- Value of a decimal digit string, most significant first. -/
def digitsVal (l : List Char) : Nat := l.foldl (fun a c => a * 10 + digitVal c) 0

/- Concrete instances used by witnesses and counterexamples. -/

/-- A one-span automaton: the start node opens span 0 on its first byte,
then every byte is consumed silently. -/
def aut0 : Automaton := fun n _ => if n = 0 then (.spanStart 0, 1) else (.move, 1)

/-- Callbacks that always succeed. -/
def cbs0 : CbEnv := fun _ _ _ => 0

/-- One span with a single candidate callback. -/
def spans0 : List SpanDef := [⟨["on_data"]⟩]

/-- A fresh state record for `aut0`. -/
def rec0 : StateRecord := ⟨0, "", 0, 0, [none], []⟩

/-- An automaton that pauses immediately with code 42. -/
def autP : Automaton := fun _ _ => (.pause 42 "paused", 7)

/- Theorems. -/

theorem slotVal_eq_some {slots : List (Option Nat)} {i u : Nat} :
    slotVal slots i = some u ↔ slots[i]? = some (some u) := by
  simp only [slotVal]
  cases h : slots[i]? with
  | none => simp
  | some o => cases o <;> simp

theorem slotActive_iff {slots : List (Option Nat)} {i : Nat} :
    slotActive slots i = true ↔ ∃ u, slotVal slots i = some u := by
  simp [slotActive, Option.isSome_iff_exists]

theorem slotVal_set_self {slots : List (Option Nat)} {i : Nat}
    (h : i < slots.length) (x : Option Nat) :
    slotVal (slots.set i x) i = x := by
  simp [slotVal, List.getElem?_set_self h]

theorem slotVal_set_ne {slots : List (Option Nat)} {i j : Nat} (h : i ≠ j)
    (x : Option Nat) :
    slotVal (slots.set i x) j = slotVal slots j := by
  simp [slotVal, List.getElem?_set_ne h]

theorem slotActive_set_ne {slots : List (Option Nat)} {i j : Nat} (h : i ≠ j)
    (x : Option Nat) :
    slotActive (slots.set i x) j = slotActive slots j := by
  simp [slotActive, slotVal_set_ne h]

theorem lt_length_of_slotActive {slots : List (Option Nat)} {i : Nat}
    (h : slotActive slots i = true) : i < slots.length := by
  obtain ⟨u, hu⟩ := slotActive_iff.mp h
  exact (List.getElem?_eq_some_iff.mp (slotVal_eq_some.mp hu)).1

theorem restartFrom_getElem? (pos : Nat) (spans : List SpanDef) :
    ∀ (idx : Nat) (slots : List (Option Nat)) (i : Nat),
    (restartFrom pos idx spans slots)[i]? =
      if idx ≤ i ∧ i < idx + spans.length ∧ slotActive slots i then some (some pos)
      else slots[i]? := by
  induction spans with
  | nil =>
    intro idx slots i
    simp only [restartFrom, List.length_nil]
    rw [if_neg]
    rintro ⟨h1, h2, _⟩
    omega
  | cons sp rest ih =>
    intro idx slots i
    by_cases hact : slotActive slots idx
    · have hlen : idx < slots.length := lt_length_of_slotActive hact
      simp only [restartFrom, hact, if_true, List.length_cons]
      rw [ih]
      by_cases hi : i = idx
      · subst hi
        rw [if_neg (by omega), List.getElem?_set_self hlen,
          if_pos ⟨le_refl i, by omega, hact⟩]
      · rw [List.getElem?_set_ne (by omega),
          slotActive_set_ne (show idx ≠ i by omega)]
        by_cases hc : idx + 1 ≤ i ∧ i < idx + 1 + rest.length ∧ slotActive slots i
        · rw [if_pos hc, if_pos ⟨by omega, by omega, hc.2.2⟩]
        · rw [if_neg hc, if_neg]
          rintro ⟨h1, h2, h3⟩
          exact hc ⟨by omega, by omega, h3⟩
    · simp only [restartFrom, hact, if_false, List.length_cons, Bool.false_eq_true]
      rw [ih]
      by_cases hi : i = idx
      · subst hi
        rw [if_neg (by omega), if_neg (by rintro ⟨h1, h2, h3⟩; exact hact h3)]
      · by_cases hc : idx + 1 ≤ i ∧ i < idx + 1 + rest.length ∧ slotActive slots i
        · rw [if_pos hc, if_pos ⟨by omega, by omega, hc.2.2⟩]
        · rw [if_neg hc, if_neg]
          rintro ⟨h1, h2, h3⟩
          exact hc ⟨by omega, by omega, h3⟩

theorem execute_eq_afterDispatch (aut : Automaton) (cbs : CbEnv)
    (spans : List SpanDef) (st : StateRecord) (pos : Nat) (buf : List Nat)
    (herr : st.error = 0) :
    execute aut cbs spans st pos buf =
      afterDispatch cbs spans
        { st with spanStart := restartSpans spans st.spanStart pos }
        (pos + buf.length) (dispatchOf aut spans st pos buf) := by
  simp [execute, executeTail, dispatchOf, herr]

theorem executeSpansFrom_code_zero (cbs : CbEnv) (spanCb : List String)
    (slots : List (Option Nat)) (endPos : Nat)
    (hz : ∀ cb s, cbs cb s endPos = 0) :
    ∀ (spans : List SpanDef) (k : Nat),
      (executeSpansFrom cbs spanCb slots endPos k spans).2 = 0 := by
  intro spans
  induction spans with
  | nil => intro k; rfl
  | cons sp rest ih =>
    intro k
    cases hv : slotVal slots k with
    | none => simpa only [executeSpansFrom, hv] using ih (k + 1)
    | some s => simp [executeSpansFrom, hv, hz, ih (k + 1)]

theorem executeSpansFrom_mem (cbs : CbEnv) (spanCb : List String)
    (slots : List (Option Nat)) (endPos : Nat)
    (hz : ∀ cb s, cbs cb s endPos = 0) :
    ∀ (spans : List SpanDef) (k j u : Nat) (sp : SpanDef),
      spans[j]? = some sp → slotVal slots (k + j) = some u →
      Ev.span (k + j) (resolvedCb sp spanCb (k + j)) u endPos ∈
        (executeSpansFrom cbs spanCb slots endPos k spans).1 := by
  intro spans
  induction spans with
  | nil => intro k j u sp h; simp at h
  | cons sp0 rest ih =>
    intro k j u sp hsp hslot
    cases j with
    | zero =>
      simp only [List.getElem?_cons_zero, Option.some.injEq] at hsp
      subst hsp
      rw [Nat.add_zero] at hslot ⊢
      simp [executeSpansFrom, hslot, hz]
    | succ j' =>
      simp only [List.getElem?_cons_succ] at hsp
      have harith : k + (j' + 1) = (k + 1) + j' := by omega
      rw [harith] at hslot ⊢
      have hmem := ih (k + 1) j' u sp hsp hslot
      cases hv : slotVal slots k with
      | none => simpa only [executeSpansFrom, hv] using hmem
      | some s => simp [executeSpansFrom, hv, hz, hmem]

theorem executeSpansFrom_err (cbs : CbEnv) (spanCb : List String)
    (slots : List (Option Nat)) (endPos : Nat) :
    ∀ (spans : List SpanDef) (k c : Nat),
      (executeSpansFrom cbs spanCb slots endPos k spans).2 = c → c ≠ 0 →
      ∃ j sp u, spans[j]? = some sp ∧ slotVal slots (k + j) = some u ∧
        cbs (resolvedCb sp spanCb (k + j)) u endPos = c := by
  intro spans
  induction spans with
  | nil =>
    intro k c h hc
    exact absurd (h.symm.trans (rfl : (executeSpansFrom cbs spanCb slots endPos k []).2 = 0)) hc
  | cons sp0 rest ih =>
    intro k c h hc
    cases hv : slotVal slots k with
    | none =>
      rw [executeSpansFrom, hv] at h
      obtain ⟨j, sp, u, h1, h2, h3⟩ := ih (k + 1) c h hc
      refine ⟨j + 1, sp, u, by simpa using h1, ?_, ?_⟩
      · rw [show k + (j + 1) = k + 1 + j by omega]; exact h2
      · rw [show k + (j + 1) = k + 1 + j by omega]; exact h3
    | some s =>
      rw [executeSpansFrom, hv] at h
      simp only at h
      by_cases hr : cbs (resolvedCb sp0 spanCb k) s endPos = 0
      · rw [if_pos hr] at h
        simp only at h
        obtain ⟨j, sp, u, h1, h2, h3⟩ := ih (k + 1) c h hc
        refine ⟨j + 1, sp, u, by simpa using h1, ?_, ?_⟩
        · rw [show k + (j + 1) = k + 1 + j by omega]; exact h2
        · rw [show k + (j + 1) = k + 1 + j by omega]; exact h3
      · rw [if_neg hr] at h
        simp only at h
        exact ⟨0, sp0, s, by simp, by simpa using hv, by simpa using h⟩

/-- C2: if the record already holds a nonzero error, `execute` returns that
error immediately: no callback fires, no input is consumed, and the record
is returned unchanged; consequently every later call on that record (with
any chunks at any positions) does the same — once erred, never un-erred. -/
theorem execute_error_sticky (aut : Automaton) (cbs : CbEnv) (spans : List SpanDef)
    (st : StateRecord) (pos : Nat) (buf : List Nat) (h : st.error ≠ 0) :
    execute aut cbs spans st pos buf = (st, st.error, []) ∧
    ∀ (chunks : List (List Nat)) (pos2 : Nat),
      executeChunks aut cbs spans st pos2 chunks = (st, []) := by
  have h1 : ∀ (pos2 : Nat) (buf2 : List Nat),
      execute aut cbs spans st pos2 buf2 = (st, st.error, []) := by
    intro pos2 buf2
    simp [execute, h]
  refine ⟨h1 pos buf, ?_⟩
  intro chunks
  induction chunks with
  | nil => intro pos2; rfl
  | cons c cs ih =>
    intro pos2
    simp [executeChunks, h1, ih]

/-- C2 witness: a concrete erred record is returned unchanged with its
error code and no events, for a single call and a chunk sequence. -/
theorem execute_error_sticky_witness :
    (⟨7, "bad", 3, 1, [some 2], []⟩ : StateRecord).error ≠ 0 ∧
    execute aut0 cbs0 spans0 ⟨7, "bad", 3, 1, [some 2], []⟩ 10 [1, 2] =
      (⟨7, "bad", 3, 1, [some 2], []⟩, 7, []) ∧
    executeChunks aut0 cbs0 spans0 ⟨7, "bad", 3, 1, [some 2], []⟩ 10 [[1], [2]] =
      (⟨7, "bad", 3, 1, [some 2], []⟩, []) := by
  have h := execute_error_sticky aut0 cbs0 spans0 ⟨7, "bad", 3, 1, [some 2], []⟩ 10 [1, 2]
    (by decide)
  exact ⟨by decide, h.1, h.2 [[1], [2]] 10⟩

/-- C3: at the start of every `execute` call, right after the
lingering-error check, the span-restart step rewrites every active span
slot to the call's starting position and leaves every inactive slot
unchanged (slots beyond the span list are untouched as well). -/
theorem restartSpans_spec (spans : List SpanDef) (slots : List (Option Nat)) (pos i : Nat) :
    (i < spans.length → slotActive slots i = true →
      (restartSpans spans slots pos)[i]? = some (some pos)) ∧
    (slotActive slots i = false → (restartSpans spans slots pos)[i]? = slots[i]?) ∧
    (spans.length ≤ i → (restartSpans spans slots pos)[i]? = slots[i]?) ∧
    (∀ (aut : Automaton) (cbs : CbEnv) (st : StateRecord) (buf : List Nat),
      st.error = 0 →
      execute aut cbs spans st pos buf =
        executeTail aut cbs spans
          { st with spanStart := restartSpans spans st.spanStart pos } pos buf) := by
  refine ⟨?_, ?_, ?_, ?_⟩
  · intro hlt hact
    rw [restartSpans, restartFrom_getElem?, if_pos ⟨Nat.zero_le i, by omega, hact⟩]
  · intro hact
    rw [restartSpans, restartFrom_getElem?, if_neg (by simp [hact])]
  · intro hge
    rw [restartSpans, restartFrom_getElem?, if_neg (by rintro ⟨_, h2, _⟩; omega)]
  · intro aut cbs st buf herr
    simp [execute, herr]

/-- C3 witness: with two spans, an active first slot is rebased to the new
position 9 and an inactive second slot stays inactive. -/
theorem restartSpans_spec_witness :
    (restartSpans [⟨["a"]⟩, ⟨["b"]⟩] [some 2, none] 9)[0]? = some (some 9) ∧
    (restartSpans [⟨["a"]⟩, ⟨["b"]⟩] [some 2, none] 9)[1]? = some none := by
  constructor
  · exact (restartSpans_spec [⟨["a"]⟩, ⟨["b"]⟩] [some 2, none] 9 0).1
      (by decide) (by decide)
  · exact ((restartSpans_spec [⟨["a"]⟩, ⟨["b"]⟩] [some 2, none] 9 1).2.1 (by decide)).trans
      (by decide)

/-- C4 counterexample: the finalize step does fire span 0's callback (the
event `span 0 "on_data" 5 5` is produced), but the record's span-start
slot afterwards is still active (`some 5`): it is not set back to
inactive, contradicting the claim. -/
theorem finalize_clears_slot_counterexample :
    (execute aut0 cbs0 spans0 ⟨0, "", 0, 1, [some 0], []⟩ 5 []).2.2 =
      [Ev.span 0 "on_data" 5 5] ∧
    (execute aut0 cbs0 spans0 ⟨0, "", 0, 1, [some 0], []⟩ 5 []).1.spanStart = [some 5] ∧
    ¬ (execute aut0 cbs0 spans0 ⟨0, "", 0, 1, [some 0], []⟩ 5 []).1.spanStart = [none] := by
  decide

/-- C4 (amended): in the finalize-on-success step every span whose start
slot is still active after dispatch has its resolved callback invoked over
`[start, endPosition)`; but the source stores nothing back into the span
slots, so the record keeps the dispatch-phase slots unchanged — the slot
stays active (it is rebased only by the next call's restart step). -/
theorem finalize_keeps_slots (aut : Automaton) (cbs : CbEnv) (spans : List SpanDef)
    (st : StateRecord) (pos : Nat) (buf : List Nat) (herr : st.error = 0)
    (hz : ∀ (cb : String) (s e : Nat), cbs cb s e = 0) (resume : Nat)
    (hres : (dispatchOf aut spans st pos buf).result = .done resume) :
    (execute aut cbs spans st pos buf).1.spanStart =
      (dispatchOf aut spans st pos buf).slots ∧
    ∀ (j u : Nat) (sp : SpanDef), spans[j]? = some sp →
      slotVal (dispatchOf aut spans st pos buf).slots j = some u →
      Ev.span j (resolvedCb sp st.spanCb j) u (pos + buf.length) ∈
        (execute aut cbs spans st pos buf).2.2 ∧
      slotVal (execute aut cbs spans st pos buf).1.spanStart j = some u := by
  rw [execute_eq_afterDispatch aut cbs spans st pos buf herr]
  rcases ho : dispatchOf aut spans st pos buf with ⟨es, sl, res, w⟩
  rw [ho] at hres
  simp only at hres
  subst hres
  have hcode : (executeSpans cbs spans st.spanCb sl (pos + buf.length)).2 = 0 :=
    executeSpansFrom_code_zero cbs st.spanCb sl (pos + buf.length)
      (fun cb s => hz cb s _) spans 0
  simp only [afterDispatch, executeSpans] at hcode ⊢
  rw [if_pos hcode]
  refine ⟨rfl, ?_⟩
  intro j u sp hsp hslot
  refine ⟨?_, hslot⟩
  have hmem := executeSpansFrom_mem cbs st.spanCb sl (pos + buf.length)
    (fun cb s => hz cb s _) spans 0 j u sp hsp (by simpa using hslot)
  simp only [Nat.zero_add] at hmem
  exact List.mem_append_right es hmem

/-- C4 witness: with one open span over the single-byte chunk `[9]` at
position 3, the finalize callback fires over `[3, 4)` and the slot stays
active at `some 3`. -/
theorem finalize_keeps_slots_witness :
    Ev.span 0 "on_data" 3 4 ∈
      (execute aut0 cbs0 spans0 ⟨0, "", 0, 1, [some 0], []⟩ 3 [9]).2.2 ∧
    slotVal (execute aut0 cbs0 spans0 ⟨0, "", 0, 1, [some 0], []⟩ 3 [9]).1.spanStart 0 =
      some 3 := by
  have h := finalize_keeps_slots aut0 cbs0 spans0 ⟨0, "", 0, 1, [some 0], []⟩ 3 [9]
    rfl (fun _ _ _ => rfl) 1 (by decide)
  exact h.2 0 3 ⟨["on_data"]⟩ (by decide) (by decide)

/-- C5: result priority of `execute`.  If the dispatch phase failed (a
Pause/Error node persisted an error), `execute` returns that code with no
finalize callback invoked; otherwise a nonzero finalize-callback return
becomes the result and is persisted with offset `endPosition`; otherwise
the call returns Ok (0) and the record stays error-free. -/
theorem execute_result_priority (aut : Automaton) (cbs : CbEnv) (spans : List SpanDef)
    (st : StateRecord) (pos : Nat) (buf : List Nat) (herr : st.error = 0) :
    (∀ (c off : Nat) (rs : String) (rz : Option Nat),
      (dispatchOf aut spans st pos buf).result = .failed c rs off rz →
      (execute aut cbs spans st pos buf).2.1 = c ∧
      (execute aut cbs spans st pos buf).1.error = c ∧
      (execute aut cbs spans st pos buf).2.2 = (dispatchOf aut spans st pos buf).events) ∧
    (∀ resume : Nat, (dispatchOf aut spans st pos buf).result = .done resume →
      ∀ c : Nat,
        (executeSpans cbs spans st.spanCb (dispatchOf aut spans st pos buf).slots
          (pos + buf.length)).2 = c →
        (c = 0 → (execute aut cbs spans st pos buf).2.1 = 0 ∧
          (execute aut cbs spans st pos buf).1.error = 0) ∧
        (c ≠ 0 → (execute aut cbs spans st pos buf).2.1 = c ∧
          (execute aut cbs spans st pos buf).1.error = c ∧
          (execute aut cbs spans st pos buf).1.errorOff = pos + buf.length ∧
          ∃ (j u : Nat) (sp : SpanDef), spans[j]? = some sp ∧
            slotVal (dispatchOf aut spans st pos buf).slots j = some u ∧
            cbs (resolvedCb sp st.spanCb j) u (pos + buf.length) = c)) := by
  rw [execute_eq_afterDispatch aut cbs spans st pos buf herr]
  rcases ho : dispatchOf aut spans st pos buf with ⟨es, sl, res, w⟩
  constructor
  · intro c off rs rz hres
    simp only at hres
    subst hres
    simp [afterDispatch]
  · intro resume hres c hc
    simp only at hres
    subst hres
    simp only at hc
    constructor
    · intro h0
      subst h0
      simp [afterDispatch, executeSpans] at hc ⊢
      rw [if_pos hc]
      exact ⟨rfl, herr⟩
    · intro hne
      obtain ⟨j, sp, u, h1, h2, h3⟩ :=
        executeSpansFrom_err cbs st.spanCb sl (pos + buf.length) spans 0 c
          (by simpa [executeSpans] using hc) hne
      simp only [Nat.zero_add] at h2 h3
      simp only [afterDispatch, executeSpans] at hc ⊢
      rw [hc, if_neg hne]
      exact ⟨rfl, rfl, rfl, j, u, sp, h1, h2, h3⟩

/-- C5 witness: a clean dispatch with all finalize callbacks returning 0
yields status 0 and an error-free record. -/
theorem execute_result_priority_witness :
    (execute aut0 cbs0 spans0 rec0 0 [9]).2.1 = 0 ∧
    (execute aut0 cbs0 spans0 rec0 0 [9]).1.error = 0 := by
  have h := (execute_result_priority aut0 cbs0 spans0 rec0 0 [9] rfl).2
    1 (by decide) 0 (by decide)
  exact h.1 rfl

/-- C6 counterexample: compiling a Pause node emits `storeError` first
(see `Pause.doBuild`), so hitting a pause persists the error fields —
code 42, reason "paused", offset — in addition to the resume target 7,
contradicting the claim that only the resume target is persisted. -/
theorem pause_counterexample :
    (execute autP cbs0 [] ⟨0, "", 0, 0, [], []⟩ 0 [9]).1.error = 42 ∧
    (execute autP cbs0 [] ⟨0, "", 0, 0, [], []⟩ 0 [9]).1.reason = "paused" ∧
    (execute autP cbs0 [] ⟨0, "", 0, 0, [], []⟩ 0 [9]).1.current = 7 ∧
    ¬ (execute autP cbs0 [] ⟨0, "", 0, 0, [], []⟩ 0 [9]).1.error = 0 := by
  decide

/-- C6 (amended): a Pause node persists the resume target (its otherwise
node into the current-node field) and also persists its error
code/reason/offset via `storeError`; the call returns that non-success
code, invokes no callback at the pause, and consumes no further input
(the error offset is the pause position and the bytes after it are
untouched). -/
theorem pause_persists_error_and_resume (aut : Automaton) (cbs : CbEnv)
    (spans : List SpanDef) (st : StateRecord) (pos b : Nat) (rest : List Nat)
    (c nx : Nat) (rs : String) (herr : st.error = 0) (hc : c ≠ 0)
    (hp : aut st.current b = (.pause c rs, nx)) :
    execute aut cbs spans st pos (b :: rest) =
      ({ st with spanStart := restartSpans spans st.spanStart pos,
                 error := c, reason := rs, errorOff := pos, current := nx }, c, []) ∧
    (execute aut cbs spans st pos (b :: rest)).2.1 ≠ 0 := by
  have hrun : dispatchOf aut spans st pos (b :: rest) =
      ⟨[], restartSpans spans st.spanStart pos, .failed c rs pos (some nx), true⟩ := by
    simp [dispatchOf, run, hp]
  rw [execute_eq_afterDispatch aut cbs spans st pos (b :: rest) herr, hrun]
  exact ⟨rfl, hc⟩

/-- C6 witness: pausing on the first byte returns code 42, persists the
error fields and resume node 7, and emits no event. -/
theorem pause_persists_witness :
    execute autP cbs0 [] ⟨0, "", 0, 0, [], []⟩ 0 [9] =
      (⟨42, "paused", 0, 7, [], []⟩, 42, []) := by
  have h := pause_persists_error_and_resume autP cbs0 [] ⟨0, "", 0, 0, [], []⟩
    0 9 [] 42 7 "paused" rfl (by decide) rfl
  exact h.1.trans (by decide)

theorem erange_self (u : Nat) : erange u u = [] := by simp [erange]

theorem erange_append {u v w : Nat} (h1 : u ≤ v) (h2 : v ≤ w) :
    erange u v ++ erange v w = erange u w := by
  have h3 : u + (v - u) = v := by omega
  have h4 : w - v + (v - u) = w - u := by omega
  calc erange u v ++ erange v w
      = List.range' u (v - u) ++ List.range' (u + (v - u)) (w - v) := by rw [h3]; rfl
    _ = List.range' u (w - v + (v - u)) := List.range'_append_1 u (v - u) (w - v)
    _ = erange u w := by rw [h4]; rfl

theorem slotVal_set (slots : List (Option Nat)) (i j : Nat) (x : Option Nat) :
    slotVal (slots.set i x) j =
      if i = j ∧ i < slots.length then x else slotVal slots j := by
  by_cases hij : i = j
  · subst hij
    by_cases hlen : i < slots.length
    · rw [if_pos ⟨rfl, hlen⟩, slotVal_set_self hlen]
    · rw [if_neg (by tauto), List.set_eq_of_length_le (by omega)]
  · rw [if_neg (by tauto), slotVal_set_ne hij]

theorem SlotsRel.mono {p q : Nat} {s t : List (Option Nat)} (hpq : p ≤ q)
    (h : SlotsRel p s t) : SlotsRel q s t := by
  refine ⟨h.1, fun i => ?_⟩
  rcases h.2 i with h' | ⟨u, v, h1, h2, h3, h4⟩
  · exact Or.inl h'
  · exact Or.inr ⟨u, v, h1, h2, h3, by omega⟩

theorem SlotsRel.set {p q : Nat} {s t : List (Option Nat)} (hpq : p ≤ q)
    (h : SlotsRel p s t) (i : Nat) (x : Option Nat) :
    SlotsRel q (s.set i x) (t.set i x) := by
  refine ⟨by simp [h.1], fun j => ?_⟩
  rw [slotVal_set, slotVal_set, h.1]
  by_cases hc : i = j ∧ i < t.length
  · rw [if_pos hc, if_pos hc]
    exact Or.inl rfl
  · rw [if_neg hc, if_neg hc]
    exact (h.mono hpq).2 j

theorem gap_of_inactive {s t : List (Option Nat)} {i : Nat}
    (h : slotVal s i = none) : gap s t i = [] := by
  simp [gap, h]

theorem gap_set_same {s t : List (Option Nat)} (hlen : s.length = t.length)
    (i j : Nat) (x : Option Nat) :
    gap (s.set i x) (t.set i x) j =
      if i = j ∧ i < s.length then [] else gap s t j := by
  rw [gap, slotVal_set, slotVal_set, ← hlen]
  by_cases hc : i = j ∧ i < s.length
  · rw [if_pos hc, if_pos hc, if_pos hc]
    cases x with
    | none => rfl
    | some u => exact erange_self u
  · rw [if_neg hc, if_neg hc, if_neg hc]
    rfl

theorem gap_pend {p E : Nat} {s t : List (Option Nat)} (h : SlotsRel p s t)
    (hE : p ≤ E) (i : Nat) : gap s t i ++ pend t i E = pend s i E := by
  rcases h.2 i with h' | ⟨u, v, h1, h2, h3, h4⟩
  · rw [gap, h', pend, pend, h']
    cases hv : slotVal t i with
    | none => rfl
    | some u => simp [erange_self]
  · rw [gap, h1, h2, pend, pend, h1, h2]
    exact erange_append h3 (le_trans h4 hE)

theorem seqOut_cons_event (e : Ev) (o : RunOut) (f : Nat → List (Option Nat) → RunOut) :
    seqOut { o with events := e :: o.events } f =
      { seqOut o f with events := e :: (seqOut o f).events } := by
  rcases o with ⟨es, sl, res, w⟩
  cases res <;> simp [seqOut]

theorem seqOut_and_wf (b : Bool) (o : RunOut) (f : Nat → List (Option Nat) → RunOut) :
    seqOut { o with wf := b && o.wf } f =
      { seqOut o f with wf := b && (seqOut o f).wf } := by
  rcases o with ⟨es, sl, res, w⟩
  cases res <;> simp [seqOut, Bool.and_assoc]

theorem run_append (aut : Automaton) : ∀ (xs ys : List Nat) (n : Nat)
    (slots : List (Option Nat)) (pos : Nat),
    run aut n slots pos (xs ++ ys) =
      seqOut (run aut n slots pos xs)
        (fun n1 sl => run aut n1 sl (pos + xs.length) ys) := by
  intro xs
  induction xs with
  | nil =>
    intro ys n slots pos
    simp [run, seqOut]
  | cons b xs' ih =>
    intro ys n slots pos
    have harith : pos + 1 + xs'.length = pos + (xs'.length + 1) := by omega
    rw [List.cons_append]
    simp only [run]
    cases ha : aut n b with
    | mk act next =>
      cases act with
      | move =>
        simp only [ih, List.length_cons, harith]
      | invoke cb =>
        simp only [ih, seqOut_cons_event, List.length_cons, harith]
      | spanStart i =>
        simp only [ih, seqOut_and_wf, List.length_cons, harith]
      | spanEnd i cb =>
        cases hv : slotVal slots i with
        | none => simp only [ih, hv, List.length_cons, harith]
        | some s => simp only [ih, hv, seqOut_cons_event, List.length_cons, harith]
      | err c rs => simp [seqOut]
      | pause c rs => simp [seqOut]

theorem invokesOf_cons_invoke (cb : String) (p : Nat) (es : List Ev) :
    invokesOf (.invoke cb p :: es) = .invoke cb p :: invokesOf es := by
  simp [invokesOf]

theorem invokesOf_cons_span (j : Nat) (cb : String) (s e : Nat) (es : List Ev) :
    invokesOf (.span j cb s e :: es) = invokesOf es := by
  simp [invokesOf]

theorem invokesOf_append (es1 es2 : List Ev) :
    invokesOf (es1 ++ es2) = invokesOf es1 ++ invokesOf es2 := by
  simp [invokesOf]

theorem spanCov_cons_invoke (i : Nat) (cb : String) (p : Nat) (es : List Ev) :
    spanCov i (.invoke cb p :: es) = spanCov i es := rfl

theorem spanCov_cons_span (i j : Nat) (cb : String) (s e : Nat) (es : List Ev) :
    spanCov i (.span j cb s e :: es) =
      if j = i then erange s e ++ spanCov i es else spanCov i es := rfl

theorem spanCov_append (i : Nat) (es1 es2 : List Ev) :
    spanCov i (es1 ++ es2) = spanCov i es1 ++ spanCov i es2 := by
  induction es1 with
  | nil => rfl
  | cons e es ih =>
    cases e with
    | invoke cb p => simpa [spanCov_cons_invoke] using ih
    | span j cb s e =>
      rw [List.cons_append, spanCov_cons_span, spanCov_cons_span, ih]
      by_cases hji : j = i
      · rw [if_pos hji, if_pos hji, List.append_assoc]
      · rw [if_neg hji, if_neg hji]

theorem slotActive_eq_false {slots : List (Option Nat)} {i : Nat} :
    slotActive slots i = false ↔ slotVal slots i = none := by
  cases h : slotVal slots i <;> simp [slotActive, h]

theorem run_rel (aut : Automaton) : ∀ (xs : List Nat) (n pos : Nat)
    (s t : List (Option Nat)), SlotsRel pos s t →
    (run aut n s pos xs).wf = true →
    (run aut n t pos xs).result = (run aut n s pos xs).result ∧
    (run aut n t pos xs).wf = true ∧
    SlotsRel (pos + xs.length) (run aut n s pos xs).slots (run aut n t pos xs).slots ∧
    (∀ i : Nat, slotVal s i = slotVal t i →
      slotVal (run aut n s pos xs).slots i = slotVal (run aut n t pos xs).slots i) ∧
    invokesOf (run aut n t pos xs).events = invokesOf (run aut n s pos xs).events ∧
    (∀ (i E : Nat), pos + xs.length ≤ E →
      gap s t i ++ spanCov i (run aut n t pos xs).events ++
        pend (run aut n t pos xs).slots i E =
      spanCov i (run aut n s pos xs).events ++ pend (run aut n s pos xs).slots i E) := by
  intro xs
  induction xs with
  | nil =>
    intro n pos s t hrel hwf
    refine ⟨rfl, rfl, by simpa using hrel, fun i h => h, rfl, fun i E hE => ?_⟩
    simp only [run, spanCov, List.append_nil]
    exact gap_pend hrel (by omega) i
  | cons b xs' ih =>
    intro n pos s t hrel hwf
    simp only [run] at hwf ⊢
    cases ha : aut n b with
    | mk act next =>
      rw [ha] at hwf
      cases act with
      | move =>
        simp only [List.length_cons,
          show pos + (xs'.length + 1) = pos + 1 + xs'.length from by omega]
        exact ih next (pos + 1) s t (hrel.mono (by omega)) hwf
      | invoke cb =>
        simp only [List.length_cons,
          show pos + (xs'.length + 1) = pos + 1 + xs'.length from by omega]
        obtain ⟨h1, h2, h3, h4, h5, h6⟩ :=
          ih next (pos + 1) s t (hrel.mono (by omega)) hwf
        refine ⟨h1, h2, h3, h4, ?_, ?_⟩
        · simp only [invokesOf_cons_invoke, h5]
        · intro i E hE
          simp only [spanCov_cons_invoke]
          exact h6 i E hE
      | spanStart i =>
        simp only [Bool.and_eq_true, Bool.not_eq_true'] at hwf
        obtain ⟨hact, hwf2⟩ := hwf
        have hs : slotVal s i = none := slotActive_eq_false.mp hact
        have ht : slotVal t i = none := by
          rcases hrel.2 i with h' | ⟨u, v, h1, _, _, _⟩
          · exact h'.symm.trans hs
          · rw [hs] at h1; exact absurd h1 (by simp)
        have htact : slotActive t i = false := slotActive_eq_false.mpr ht
        simp only [List.length_cons,
          show pos + (xs'.length + 1) = pos + 1 + xs'.length from by omega]
        obtain ⟨h1, h2, h3, h4, h5, h6⟩ := ih next (pos + 1) (s.set i (some pos))
          (t.set i (some pos)) (hrel.set (by omega) i (some pos)) hwf2
        refine ⟨h1, by simp [htact, h2], h3, ?_, h5, ?_⟩
        · intro j hj
          apply h4
          rw [slotVal_set, slotVal_set, hrel.1]
          by_cases hc : i = j ∧ i < t.length
          · rw [if_pos hc, if_pos hc]
          · rw [if_neg hc, if_neg hc]; exact hj
        · intro j E hE
          have hg : gap (s.set i (some pos)) (t.set i (some pos)) j = gap s t j := by
            rw [gap_set_same hrel.1]
            by_cases hc : i = j ∧ i < s.length
            · rw [if_pos hc]
              exact (gap_of_inactive (hc.1 ▸ hs)).symm
            · rw [if_neg hc]
          rw [← hg]
          exact h6 j E hE
      | spanEnd i cb =>
        cases hvs : slotVal s i with
        | none =>
          have hvt : slotVal t i = none := by
            rcases hrel.2 i with h' | ⟨u, v, h1, _, _, _⟩
            · exact h'.symm.trans hvs
            · rw [hvs] at h1; exact absurd h1 (by simp)
          simp only [hvs] at hwf
          simp only [hvs, hvt, List.length_cons,
            show pos + (xs'.length + 1) = pos + 1 + xs'.length from by omega]
          exact ih next (pos + 1) s t (hrel.mono (by omega)) hwf
        | some u =>
          have hlen : i < s.length :=
            (List.getElem?_eq_some_iff.mp (slotVal_eq_some.mp hvs)).1
          obtain ⟨v, hvt, hgap⟩ : ∃ v, slotVal t i = some v ∧
              gap s t i ++ erange v pos = erange u pos := by
            rcases hrel.2 i with h' | ⟨u', v, hu, hv, huv, hvp⟩
            · have hvt : slotVal t i = some u := h'.symm.trans hvs
              refine ⟨u, hvt, ?_⟩
              have hg : gap s t i = [] := by
                simp only [gap, hvs, hvt]
                exact erange_self u
              rw [hg, List.nil_append]
            · have huu : u' = u := Option.some.inj (hu.symm.trans hvs)
              rw [huu] at huv
              refine ⟨v, hv, ?_⟩
              have hg : gap s t i = erange u v := by simp only [gap, hvs, hv]
              rw [hg]
              exact erange_append huv hvp
          simp only [hvs] at hwf
          simp only [hvs, hvt, List.length_cons,
            show pos + (xs'.length + 1) = pos + 1 + xs'.length from by omega]
          obtain ⟨h1, h2, h3, h4, h5, h6⟩ := ih next (pos + 1) (s.set i none)
            (t.set i none) (hrel.set (by omega) i none) hwf
          refine ⟨h1, h2, h3, ?_, ?_, ?_⟩
          · intro j hj
            apply h4
            rw [slotVal_set, slotVal_set, hrel.1]
            by_cases hc : i = j ∧ i < t.length
            · rw [if_pos hc, if_pos hc]
            · rw [if_neg hc, if_neg hc]; exact hj
          · simp only [invokesOf_cons_span, h5]
          · intro j E hE
            rw [spanCov_cons_span, spanCov_cons_span]
            by_cases hji : i = j
            · subst hji
              rw [if_pos rfl, if_pos rfl]
              have h6i := h6 i E hE
              rw [gap_set_same hrel.1, if_pos ⟨rfl, hlen⟩, List.nil_append] at h6i
              calc gap s t i ++ (erange v pos ++
                      spanCov i (run aut next (t.set i none) (pos + 1) xs').events) ++
                    pend (run aut next (t.set i none) (pos + 1) xs').slots i E
                  = (gap s t i ++ erange v pos) ++
                    (spanCov i (run aut next (t.set i none) (pos + 1) xs').events ++
                      pend (run aut next (t.set i none) (pos + 1) xs').slots i E) := by
                    simp [List.append_assoc]
                _ = erange u pos ++
                    (spanCov i (run aut next (s.set i none) (pos + 1) xs').events ++
                      pend (run aut next (s.set i none) (pos + 1) xs').slots i E) := by
                    rw [hgap, h6i]
                _ = erange u pos ++
                      spanCov i (run aut next (s.set i none) (pos + 1) xs').events ++
                      pend (run aut next (s.set i none) (pos + 1) xs').slots i E := by
                    simp [List.append_assoc]
            · rw [if_neg hji, if_neg hji]
              have hg : gap (s.set i none) (t.set i none) j = gap s t j := by
                rw [gap_set_same hrel.1]
                rw [if_neg (by tauto)]
              rw [← hg]
              exact h6 j E hE
      | err c rs =>
        refine ⟨rfl, rfl, by simpa using hrel.mono (by omega), fun i h => h, rfl,
          fun i E hE => ?_⟩
        simp only [spanCov, List.append_nil]
        exact gap_pend hrel (by simp at hE; omega) i
      | pause c rs =>
        refine ⟨rfl, rfl, by simpa using hrel.mono (by omega), fun i h => h, rfl,
          fun i E hE => ?_⟩
        simp only [spanCov, List.append_nil]
        exact gap_pend hrel (by simp at hE; omega) i

theorem restartFrom_length (pos : Nat) : ∀ (spans : List SpanDef) (idx : Nat)
    (slots : List (Option Nat)),
    (restartFrom pos idx spans slots).length = slots.length := by
  intro spans
  induction spans with
  | nil => intro idx slots; rfl
  | cons sp rest ih =>
    intro idx slots
    cases hact : slotActive slots idx <;> simp [restartFrom, hact, ih]

theorem slotVal_restartSpans (spans : List SpanDef) (slots : List (Option Nat))
    (pos i : Nat) :
    slotVal (restartSpans spans slots pos) i =
      if i < spans.length ∧ slotActive slots i then some pos
      else slotVal slots i := by
  rw [slotVal, restartSpans, restartFrom_getElem?]
  by_cases hc : i < spans.length ∧ slotActive slots i
  · rw [if_pos ⟨Nat.zero_le i, by omega, hc.2⟩, if_pos hc]
    rfl
  · rw [if_neg (by rintro ⟨_, h2, h3⟩; exact hc ⟨by omega, h3⟩), if_neg hc]
    rfl

theorem run_slots_leB (aut : Automaton) (len : Nat) : ∀ (xs : List Nat) (n pos : Nat)
    (slots : List (Option Nat)),
    (∀ (i u : Nat), i < len → slotVal slots i = some u → u ≤ pos) →
    ∀ (i u : Nat), i < len →
      slotVal (run aut n slots pos xs).slots i = some u → u ≤ pos + xs.length := by
  intro xs
  induction xs with
  | nil =>
    intro n pos slots hb i u hi h
    have := hb i u hi h
    omega
  | cons b xs' ih =>
    intro n pos slots hb i u hi h
    simp only [run] at h
    cases ha : aut n b with
    | mk act next =>
      rw [ha] at h
      have hmono : ∀ (sl : List (Option Nat)),
          (∀ (j v : Nat), j < len → slotVal sl j = some v → v ≤ pos + 1) →
          slotVal (run aut next sl (pos + 1) xs').slots i = some u →
          u ≤ pos + (xs'.length + 1) := by
        intro sl hbb hh
        have := ih next (pos + 1) sl hbb i u hi hh
        omega
      have hb1 : ∀ (j v : Nat), j < len → slotVal slots j = some v → v ≤ pos + 1 := by
        intro j v hj hv
        have := hb j v hj hv
        omega
      have hbset : ∀ (x : Option Nat), (∀ v, x = some v → v ≤ pos + 1) →
          ∀ (k : Nat) (j v : Nat), j < len →
          slotVal (slots.set k x) j = some v → v ≤ pos + 1 := by
        intro x hx k j v hj hv
        rw [slotVal_set] at hv
        by_cases hc : k = j ∧ k < slots.length
        · rw [if_pos hc] at hv
          exact hx v hv
        · rw [if_neg hc] at hv
          exact hb1 j v hj hv
      cases act with
      | move => exact hmono slots hb1 h
      | invoke cb => exact hmono slots hb1 h
      | spanStart k =>
        exact hmono (slots.set k (some pos))
          (hbset (some pos) (fun v hv => by cases hv; omega) k) h
      | spanEnd k cb =>
        cases hv : slotVal slots k with
        | none =>
          simp only [hv] at h
          exact hmono slots hb1 h
        | some w =>
          simp only [hv] at h
          exact hmono (slots.set k none)
            (hbset none (fun v hv => by cases hv) k) h
      | err c rs =>
        have := hb i u hi h
        omega
      | pause c rs =>
        have := hb i u hi h
        omega

theorem executeSpansFrom_cov (cbs : CbEnv) (spanCb : List String)
    (slots : List (Option Nat)) (endPos : Nat)
    (hz : ∀ cb s, cbs cb s endPos = 0) :
    ∀ (spans : List SpanDef) (k i : Nat),
      spanCov i (executeSpansFrom cbs spanCb slots endPos k spans).1 =
        if k ≤ i ∧ i < k + spans.length then pend slots i endPos else [] := by
  intro spans
  induction spans with
  | nil =>
    intro k i
    rw [if_neg (by rintro ⟨h1, h2⟩; simp only [List.length_nil] at h2; omega)]
    rfl
  | cons sp rest ih =>
    intro k i
    cases hv : slotVal slots k with
    | none =>
      rw [executeSpansFrom, hv, ih]
      by_cases hik : i = k
      · subst hik
        rw [if_neg (by omega), if_pos ⟨le_refl i, by simp only [List.length_cons]; omega⟩, pend, hv]
      · by_cases hc : k + 1 ≤ i ∧ i < k + 1 + rest.length
        · rw [if_pos hc, if_pos ⟨by omega, by simp only [List.length_cons]; omega⟩]
        · rw [if_neg hc, if_neg (by rintro ⟨h1, h2⟩; simp only [List.length_cons] at h2; exact hc ⟨by omega, by omega⟩)]
    | some u =>
      rw [executeSpansFrom, hv]
      simp only [hz, if_pos]
      rw [spanCov_cons_span, ih]
      by_cases hik : k = i
      · subst hik
        rw [if_pos rfl, if_neg (by omega), if_pos ⟨le_refl k, by simp only [List.length_cons]; omega⟩,
          pend, hv, List.append_nil]
      · rw [if_neg hik]
        by_cases hc : k + 1 ≤ i ∧ i < k + 1 + rest.length
        · rw [if_pos hc, if_pos ⟨by omega, by simp only [List.length_cons]; omega⟩]
        · rw [if_neg hc, if_neg (by rintro ⟨h1, h2⟩; simp only [List.length_cons] at h2; exact hc ⟨by omega, by omega⟩)]

theorem executeSpansFrom_invokes (cbs : CbEnv) (spanCb : List String)
    (slots : List (Option Nat)) (endPos : Nat) :
    ∀ (spans : List SpanDef) (k : Nat),
      invokesOf (executeSpansFrom cbs spanCb slots endPos k spans).1 = [] := by
  intro spans
  induction spans with
  | nil => intro k; rfl
  | cons sp rest ih =>
    intro k
    cases hv : slotVal slots k with
    | none => rw [executeSpansFrom, hv]; exact ih (k + 1)
    | some u =>
      rw [executeSpansFrom, hv]
      simp only
      by_cases hr : cbs (resolvedCb sp spanCb k) u endPos = 0
      · rw [if_pos hr]
        simp only [invokesOf_cons_span]
        exact ih (k + 1)
      · rw [if_neg hr]
        simp [invokesOf]

theorem chunked_sim (aut : Automaton) (cbs : CbEnv) (spans : List SpanDef)
    (hz : ∀ (cb : String) (s e : Nat), cbs cb s e = 0) :
    ∀ (chunks : List (List Nat)) (n pos : Nat) (s : List (Option Nat)) (stC : StateRecord),
    stC.error = 0 → stC.current = n →
    EntryRel spans.length pos s stC.spanStart →
    (run aut n s pos chunks.flatten).result.isDone = true →
    (run aut n s pos chunks.flatten).wf = true →
    invokesOf (executeChunks aut cbs spans stC pos chunks).2 =
      invokesOf (run aut n s pos chunks.flatten).events ∧
    ∀ i : Nat,
      gap s (restartSpans spans stC.spanStart pos) i ++
        spanCov i (executeChunks aut cbs spans stC pos chunks).2 =
      spanCov i (run aut n s pos chunks.flatten).events ++
        (if i < spans.length
         then pend (run aut n s pos chunks.flatten).slots i (pos + chunks.flatten.length)
         else []) := by
  intro chunks
  induction chunks with
  | nil =>
    intro n pos s stC herr hcur hrel hdone hwf
    obtain ⟨hlen, hact, hge, hbound⟩ := hrel
    refine ⟨rfl, ?_⟩
    intro i
    simp only [executeChunks, List.flatten_nil, run, spanCov, List.append_nil,
      List.nil_append, List.length_nil, Nat.add_zero]
    by_cases hi : i < spans.length
    · rw [if_pos hi]
      cases hsv : slotVal s i with
      | some u =>
        have hactT : slotActive stC.spanStart i = true := by
          rw [slotActive, ← hact i, hsv]; rfl
        simp only [gap, hsv, slotVal_restartSpans, if_pos (And.intro hi hactT),
          pend]
      | none =>
        have hactT : slotActive stC.spanStart i = false := by
          rw [slotActive, ← hact i, hsv]; rfl
        simp only [gap, hsv, pend]
    · rw [if_neg hi]
      have heq := hge i (by omega)
      have hres : slotVal (restartSpans spans stC.spanStart pos) i =
          slotVal stC.spanStart i := by
        rw [slotVal_restartSpans, if_neg (by rintro ⟨h1, _⟩; omega)]
      cases hsv : slotVal s i with
      | some u =>
        simp only [gap, hsv, hres, ← heq, hsv, erange_self]
      | none =>
        simp only [gap, hsv]
  | cons c cs ihc =>
    intro n pos s stC herr hcur hrel hdone hwf
    obtain ⟨hlen, hact, hge, hbound⟩ := hrel
    rw [show (c :: cs).flatten = c ++ cs.flatten from rfl] at hdone hwf ⊢
    rw [run_append] at hdone hwf ⊢
    rcases hres1 : (run aut n s pos c).result with n1 | ⟨c0, rs0, off0, rz0⟩
    case _ =>
      have hseq : seqOut (run aut n s pos c)
          (fun n2 sl => run aut n2 sl (pos + c.length) cs.flatten) =
          ⟨(run aut n s pos c).events ++
              (run aut n1 (run aut n s pos c).slots (pos + c.length) cs.flatten).events,
            (run aut n1 (run aut n s pos c).slots (pos + c.length) cs.flatten).slots,
            (run aut n1 (run aut n s pos c).slots (pos + c.length) cs.flatten).result,
            (run aut n s pos c).wf &&
              (run aut n1 (run aut n s pos c).slots (pos + c.length) cs.flatten).wf⟩ := by
        simp only [seqOut, hres1]
      rw [hseq] at hdone hwf ⊢
      have hdoneJ : (run aut n1 (run aut n s pos c).slots (pos + c.length)
          cs.flatten).result.isDone = true := hdone
      have hw12 : ((run aut n s pos c).wf &&
          (run aut n1 (run aut n s pos c).slots (pos + c.length) cs.flatten).wf) = true := hwf
      rw [Bool.and_eq_true] at hw12
      obtain ⟨hw1, hwJ⟩ := hw12
      have hrel0 : SlotsRel pos s (restartSpans spans stC.spanStart pos) := by
        refine ⟨by rw [hlen, restartSpans, restartFrom_length], fun i => ?_⟩
        by_cases hi : i < spans.length
        · cases hsv : slotVal s i with
          | some u =>
            have hactT : slotActive stC.spanStart i = true := by
              rw [slotActive, ← hact i, hsv]; rfl
            exact Or.inr ⟨u, pos, rfl,
              by rw [slotVal_restartSpans, if_pos ⟨hi, hactT⟩],
              hbound i u hi hsv, le_refl pos⟩
          | none =>
            have hactF : (slotVal stC.spanStart i).isSome = false := by
              rw [← hact i, hsv]; rfl
            refine Or.inl ?_
            rw [slotVal_restartSpans,
              if_neg (by rintro ⟨_, h2⟩; rw [slotActive] at h2; simp [hactF] at h2)]
            cases hvt : slotVal stC.spanStart i with
            | none => rfl
            | some v => rw [hvt] at hactF; simp at hactF
        · refine Or.inl ?_
          rw [slotVal_restartSpans, if_neg (by rintro ⟨h1, _⟩; omega)]
          exact hge i (by omega)
      obtain ⟨hR1, hW1, hRel1, hPt1, hInv1, hEq1⟩ :=
        run_rel aut c n pos s (restartSpans spans stC.spanStart pos) hrel0 hw1
      have hres1c : (run aut n (restartSpans spans stC.spanStart pos) pos c).result =
          .done n1 := by rw [hR1, hres1]
      have hexec : execute aut cbs spans stC pos c =
          ({ stC with
              current := n1
              spanStart := (run aut n (restartSpans spans stC.spanStart pos) pos c).slots }, 0,
            (run aut n (restartSpans spans stC.spanStart pos) pos c).events ++
              (executeSpans cbs spans stC.spanCb
                (run aut n (restartSpans spans stC.spanStart pos) pos c).slots
                (pos + c.length)).1) := by
        rw [execute_eq_afterDispatch aut cbs spans stC pos c herr]
        rw [dispatchOf, hcur]
        rcases hoc : run aut n (restartSpans spans stC.spanStart pos) pos c
          with ⟨e1c, t1, r1c, w1c⟩
        rw [hoc] at hres1c
        simp only at hres1c
        subst hres1c
        have hcode : (executeSpans cbs spans stC.spanCb t1 (pos + c.length)).2 = 0 :=
          executeSpansFrom_code_zero cbs stC.spanCb t1 (pos + c.length)
            (fun cb s2 => hz cb s2 _) spans 0
        simp only [afterDispatch, executeSpans] at hcode ⊢
        rw [if_pos hcode]
      simp only [executeChunks, hexec]
      have hact1 : ∀ i : Nat, (slotVal (run aut n s pos c).slots i).isSome =
          (slotVal (run aut n (restartSpans spans stC.spanStart pos) pos c).slots i).isSome := by
        intro i
        rcases hRel1.2 i with h | ⟨u, v, h1, h2, _, _⟩
        · rw [h]
        · rw [h1, h2]
          rfl
      have hge1 : ∀ i : Nat, spans.length ≤ i →
          slotVal (run aut n s pos c).slots i =
          slotVal (run aut n (restartSpans spans stC.spanStart pos) pos c).slots i := by
        intro i hi
        refine hPt1 i ?_
        rw [slotVal_restartSpans, if_neg (by rintro ⟨h1, _⟩; omega)]
        exact hge i hi
      have hIH := ihc n1 (pos + c.length) (run aut n s pos c).slots
        ({ stC with
            current := n1
            spanStart := (run aut n (restartSpans spans stC.spanStart pos) pos c).slots })
        herr rfl
        ⟨hRel1.1, hact1, hge1,
          run_slots_leB aut spans.length c n pos s hbound⟩
        hdoneJ hwJ
      have hF1cov : ∀ i : Nat,
          spanCov i (executeSpans cbs spans stC.spanCb
            (run aut n (restartSpans spans stC.spanStart pos) pos c).slots
            (pos + c.length)).1 =
          if i < spans.length
          then pend (run aut n (restartSpans spans stC.spanStart pos) pos c).slots i
            (pos + c.length)
          else [] := by
        intro i
        rw [executeSpans, executeSpansFrom_cov cbs stC.spanCb _ (pos + c.length)
          (fun cb s2 => hz cb s2 _) spans 0]
        simp only [Nat.zero_le, true_and, Nat.zero_add]
      have hGr : ∀ i : Nat,
          gap (run aut n s pos c).slots
            (restartSpans spans
              (run aut n (restartSpans spans stC.spanStart pos) pos c).slots
              (pos + c.length)) i =
          if i < spans.length
          then pend (run aut n s pos c).slots i (pos + c.length)
          else [] := by
        intro i
        by_cases hi : i < spans.length
        · rw [if_pos hi]
          cases hsv : slotVal (run aut n s pos c).slots i with
          | some u =>
            have hactT : slotActive
                (run aut n (restartSpans spans stC.spanStart pos) pos c).slots i = true := by
              rw [slotActive, ← hact1 i, hsv]; rfl
            simp only [gap, hsv, slotVal_restartSpans, if_pos (And.intro hi hactT), pend]
          | none =>
            simp only [gap, hsv, pend]
        · rw [if_neg hi]
          have hres' : slotVal (restartSpans spans
              (run aut n (restartSpans spans stC.spanStart pos) pos c).slots
              (pos + c.length)) i =
              slotVal (run aut n (restartSpans spans stC.spanStart pos) pos c).slots i := by
            rw [slotVal_restartSpans, if_neg (by rintro ⟨h1, _⟩; omega)]
          cases hsv : slotVal (run aut n s pos c).slots i with
          | some u =>
            simp only [gap, hsv, hres', ← hge1 i (by omega), hsv, erange_self]
          | none => simp only [gap, hsv]
      have hpendEq : ∀ (i : Nat), spans.length ≤ i → ∀ (E : Nat),
          pend (run aut n (restartSpans spans stC.spanStart pos) pos c).slots i E =
          pend (run aut n s pos c).slots i E := by
        intro i hi E
        rw [pend, pend, hge1 i hi]
      constructor
      · simp only [invokesOf_append, hIH.1]
        rw [executeSpans, executeSpansFrom_invokes, hInv1]
        simp
      · intro i
        have hIH2 := hIH.2 i
        simp only at hIH2
        rw [hGr i] at hIH2
        simp only [spanCov_append, List.length_append,
          show pos + (c.length + cs.flatten.length) = pos + c.length + cs.flatten.length
            from by omega]
        rw [hF1cov i]
        by_cases hi : i < spans.length
        · rw [if_pos hi, if_pos hi]
          rw [if_pos hi] at hIH2
          have hpre := hEq1 i (pos + c.length) (le_refl _)
          rw [if_pos hi] at hIH2
          calc gap s (restartSpans spans stC.spanStart pos) i ++
                ((spanCov i (run aut n (restartSpans spans stC.spanStart pos) pos c).events ++
                  pend (run aut n (restartSpans spans stC.spanStart pos) pos c).slots i
                    (pos + c.length)) ++
                  spanCov i (executeChunks aut cbs spans
                    { stC with
                      current := n1
                      spanStart := (run aut n (restartSpans spans stC.spanStart pos) pos c).slots }
                    (pos + c.length) cs).2)
              = (gap s (restartSpans spans stC.spanStart pos) i ++
                  spanCov i (run aut n (restartSpans spans stC.spanStart pos) pos c).events ++
                  pend (run aut n (restartSpans spans stC.spanStart pos) pos c).slots i
                    (pos + c.length)) ++
                  spanCov i (executeChunks aut cbs spans
                    { stC with
                      current := n1
                      spanStart := (run aut n (restartSpans spans stC.spanStart pos) pos c).slots }
                    (pos + c.length) cs).2 := by
                simp [List.append_assoc]
            _ = (spanCov i (run aut n s pos c).events ++
                  pend (run aut n s pos c).slots i (pos + c.length)) ++
                  spanCov i (executeChunks aut cbs spans
                    { stC with
                      current := n1
                      spanStart := (run aut n (restartSpans spans stC.spanStart pos) pos c).slots }
                    (pos + c.length) cs).2 := by
                rw [hpre]
            _ = spanCov i (run aut n s pos c).events ++
                  (pend (run aut n s pos c).slots i (pos + c.length) ++
                    spanCov i (executeChunks aut cbs spans
                      { stC with
                        current := n1
                        spanStart := (run aut n (restartSpans spans stC.spanStart pos) pos c).slots }
                      (pos + c.length) cs).2) := by
                simp [List.append_assoc]
            _ = spanCov i (run aut n s pos c).events ++
                  (spanCov i (run aut n1 (run aut n s pos c).slots (pos + c.length)
                      cs.flatten).events ++
                    pend (run aut n1 (run aut n s pos c).slots (pos + c.length)
                      cs.flatten).slots i (pos + c.length + cs.flatten.length)) := by
                rw [hIH2]
            _ = spanCov i (run aut n s pos c).events ++
                  spanCov i (run aut n1 (run aut n s pos c).slots (pos + c.length)
                    cs.flatten).events ++
                  pend (run aut n1 (run aut n s pos c).slots (pos + c.length)
                    cs.flatten).slots i (pos + c.length + cs.flatten.length) := by
                simp [List.append_assoc]
        · rw [if_neg hi, if_neg hi]
          rw [if_neg hi] at hIH2
          rw [if_neg hi] at hIH2
          have hpre := hEq1 i (pos + c.length) (le_refl _)
          rw [hpendEq i (by omega)] at hpre
          have hpre2 : gap s (restartSpans spans stC.spanStart pos) i ++
              spanCov i (run aut n (restartSpans spans stC.spanStart pos) pos c).events =
              spanCov i (run aut n s pos c).events :=
            List.append_cancel_right hpre
          rw [List.append_nil, List.nil_append] at hIH2
          calc gap s (restartSpans spans stC.spanStart pos) i ++
                ((spanCov i (run aut n (restartSpans spans stC.spanStart pos) pos c).events ++
                  []) ++
                  spanCov i (executeChunks aut cbs spans
                    { stC with
                      current := n1
                      spanStart := (run aut n (restartSpans spans stC.spanStart pos) pos c).slots }
                    (pos + c.length) cs).2)
              = (gap s (restartSpans spans stC.spanStart pos) i ++
                  spanCov i (run aut n (restartSpans spans stC.spanStart pos) pos c).events) ++
                  spanCov i (executeChunks aut cbs spans
                    { stC with
                      current := n1
                      spanStart := (run aut n (restartSpans spans stC.spanStart pos) pos c).slots }
                    (pos + c.length) cs).2 := by
                simp [List.append_assoc]
            _ = spanCov i (run aut n s pos c).events ++
                  spanCov i (run aut n1 (run aut n s pos c).slots (pos + c.length)
                    cs.flatten).events := by
                rw [hpre2, hIH2]
            _ = spanCov i (run aut n s pos c).events ++
                  spanCov i (run aut n1 (run aut n s pos c).slots (pos + c.length)
                    cs.flatten).events ++ [] := by
                simp
    case _ =>
      have hseq : seqOut (run aut n s pos c)
          (fun n2 sl => run aut n2 sl (pos + c.length) cs.flatten) =
          run aut n s pos c := by
        simp only [seqOut, hres1]
      rw [hseq, hres1] at hdone
      exact absurd hdone (by simp [RunResult.isDone])

theorem gap_self (s : List (Option Nat)) (i : Nat) : gap s s i = [] := by
  cases hv : slotVal s i with
  | none => simp [gap, hv]
  | some u => simp [gap, hv, erange_self]

/-- C1 counterexample: a span left open across a chunk boundary.  The
single call over `[9, 9]` finalizes the span once, over `[0, 2)`; feeding
the same bytes as two one-byte chunks fires the span callback twice, over
`[0, 1)` and `[1, 2)` — so the two (callback, byte-range) sequences are
not equal. -/
theorem chunked_equivalence_counterexample :
    (execute aut0 cbs0 spans0 rec0 0 [9, 9]).2.2 = [Ev.span 0 "on_data" 0 2] ∧
    (executeChunks aut0 cbs0 spans0 rec0 0 [[9], [9]]).2 =
      [Ev.span 0 "on_data" 0 1, Ev.span 0 "on_data" 1 2] ∧
    ¬ (executeChunks aut0 cbs0 spans0 rec0 0 [[9], [9]]).2 =
      (execute aut0 cbs0 spans0 rec0 0 [9, 9]).2.2 := by
  decide

/-- C1 (amended): for every input, every way of splitting it into ordered
contiguous chunks, and every state record — provided the whole-input
dispatch completes without a pause/error, no span is re-opened while
active, and every span callback returns 0 — feeding the chunks through
successive `execute` calls produces exactly the same ordered sequence of
non-span (match/value) callback invocations as the single call, and, for
each span, span-callback invocations that cover, in order, exactly the
same byte positions; the span invocations themselves may be split at the
chunk boundaries (one finalize per chunk end, rebased by the restart
step) instead of arriving as the identical (callback, byte-range) pairs. -/
theorem chunked_execute_equivalence (aut : Automaton) (cbs : CbEnv)
    (spans : List SpanDef) (st : StateRecord) (pos : Nat) (chunks : List (List Nat))
    (hz : ∀ (cb : String) (s e : Nat), cbs cb s e = 0)
    (herr : st.error = 0)
    (hdone : (dispatchOf aut spans st pos chunks.flatten).result.isDone = true)
    (hwf : (dispatchOf aut spans st pos chunks.flatten).wf = true) :
    invokesOf (executeChunks aut cbs spans st pos chunks).2 =
      invokesOf (execute aut cbs spans st pos chunks.flatten).2.2 ∧
    ∀ i : Nat, spanCov i (executeChunks aut cbs spans st pos chunks).2 =
      spanCov i (execute aut cbs spans st pos chunks.flatten).2.2 := by
  rcases hres : (dispatchOf aut spans st pos chunks.flatten).result
    with resume | ⟨c0, rs0, off0, rz0⟩
  case _ =>
    have hsingle : execute aut cbs spans st pos chunks.flatten =
        ({ st with
            current := resume
            spanStart := (dispatchOf aut spans st pos chunks.flatten).slots }, 0,
          (dispatchOf aut spans st pos chunks.flatten).events ++
            (executeSpans cbs spans st.spanCb
              (dispatchOf aut spans st pos chunks.flatten).slots
              (pos + chunks.flatten.length)).1) := by
      rw [execute_eq_afterDispatch aut cbs spans st pos chunks.flatten herr]
      rcases hoc : dispatchOf aut spans st pos chunks.flatten with ⟨es, sl, res, w⟩
      rw [hoc] at hres
      simp only at hres
      subst hres
      have hcode : (executeSpans cbs spans st.spanCb sl (pos + chunks.flatten.length)).2 = 0 :=
        executeSpansFrom_code_zero cbs st.spanCb sl (pos + chunks.flatten.length)
          (fun cb s2 => hz cb s2 _) spans 0
      simp only [afterDispatch, executeSpans] at hcode ⊢
      rw [if_pos hcode]
    have hrelEntry : EntryRel spans.length pos
        (restartSpans spans st.spanStart pos) st.spanStart := by
      refine ⟨by rw [restartSpans, restartFrom_length], ?_, ?_, ?_⟩
      · intro i
        rw [slotVal_restartSpans]
        by_cases hc : i < spans.length ∧ slotActive st.spanStart i
        · rw [if_pos hc]
          have h2 := hc.2
          rw [slotActive] at h2
          rw [h2]
          rfl
        · rw [if_neg hc]
      · intro i hi
        rw [slotVal_restartSpans, if_neg (by rintro ⟨h1, _⟩; omega)]
      · intro i u hi hu
        rw [slotVal_restartSpans] at hu
        by_cases hc : i < spans.length ∧ slotActive st.spanStart i
        · rw [if_pos hc] at hu
          cases hu
          exact le_refl pos
        · rw [if_neg hc] at hu
          have hina : slotActive st.spanStart i = false := by
            cases hact : slotActive st.spanStart i with
            | false => rfl
            | true => exact absurd ⟨hi, hact⟩ hc
          rw [slotActive_eq_false] at hina
          rw [hina] at hu
          cases hu
    obtain ⟨hInv, hCov⟩ := chunked_sim aut cbs spans hz chunks st.current pos
      (restartSpans spans st.spanStart pos) st herr rfl hrelEntry hdone hwf
    constructor
    · rw [hInv, hsingle]
      simp only [invokesOf_append, executeSpans, executeSpansFrom_invokes,
        List.append_nil]
      rfl
    · intro i
      have hCi := hCov i
      rw [gap_self, List.nil_append] at hCi
      rw [hCi, hsingle]
      simp only [spanCov_append]
      have hFcov : spanCov i (executeSpans cbs spans st.spanCb
          (dispatchOf aut spans st pos chunks.flatten).slots
          (pos + chunks.flatten.length)).1 =
          if i < spans.length
          then pend (dispatchOf aut spans st pos chunks.flatten).slots i
            (pos + chunks.flatten.length)
          else [] := by
        rw [executeSpans, executeSpansFrom_cov cbs st.spanCb _ _
          (fun cb s2 => hz cb s2 _) spans 0]
        simp only [Nat.zero_le, true_and, Nat.zero_add]
      rw [hFcov]
      rfl
  case _ =>
    rw [hres] at hdone
    exact absurd hdone (by simp [RunResult.isDone])

/-- C1 witness: the counterexample scenario satisfies the amended
equivalence — the two runs have the same (empty) non-span invocation
sequence, and span 0's coverage is `[0, 1)` ++ `[1, 2)` = `[0, 2)` on
both sides. -/
theorem chunked_execute_equivalence_witness :
    invokesOf (executeChunks aut0 cbs0 spans0 rec0 0 [[9], [9]]).2 =
      invokesOf (execute aut0 cbs0 spans0 rec0 0 [9, 9]).2.2 ∧
    spanCov 0 (executeChunks aut0 cbs0 spans0 rec0 0 [[9], [9]]).2 =
      spanCov 0 (execute aut0 cbs0 spans0 rec0 0 [9, 9]).2.2 := by
  have h := chunked_execute_equivalence aut0 cbs0 spans0 rec0 0 [[9], [9]]
    (fun _ _ _ => rfl) rfl (by decide) (by decide)
  exact ⟨h.1, h.2 0⟩

theorem toDigitsCore_shift (b : Nat) : ∀ (f n : Nat) (acc : List Char),
    Nat.toDigitsCore b f n acc = Nat.toDigitsCore b f n [] ++ acc := by
  intro f
  induction f with
  | zero => intro n acc; rfl
  | succ f ih =>
    intro n acc
    simp only [Nat.toDigitsCore]
    by_cases h : n / b = 0
    · rw [if_pos h, if_pos h]
      rfl
    · rw [if_neg h, if_neg h, ih (n / b) (Nat.digitChar (n % b) :: acc),
        ih (n / b) [Nat.digitChar (n % b)]]
      simp [List.append_assoc]

theorem digitVal_digitChar : ∀ n < 10, digitVal (Nat.digitChar n) = n := by decide

theorem digitsVal_toDigitsCore : ∀ (f n : Nat), n < f →
    digitsVal (Nat.toDigitsCore 10 f n []) = n := by
  intro f
  induction f with
  | zero => intro n h; omega
  | succ f ih =>
    intro n h
    simp only [Nat.toDigitsCore]
    by_cases h0 : n / 10 = 0
    · rw [if_pos h0]
      have hn : n < 10 := by omega
      have hmod : n % 10 = n := Nat.mod_eq_of_lt hn
      simp only [digitsVal, List.foldl_cons, List.foldl_nil, Nat.zero_mul,
        Nat.zero_add, hmod]
      exact digitVal_digitChar n hn
    · rw [if_neg h0, toDigitsCore_shift]
      have hlt : n / 10 < f := by
        have h2 := Nat.div_lt_self (show 0 < n by omega) (show 1 < 10 by norm_num)
        omega
      have hih := ih (n / 10) hlt
      have hd : digitVal (Nat.digitChar (n % 10)) = n % 10 :=
        digitVal_digitChar (n % 10) (Nat.mod_lt n (by norm_num))
      simp only [digitsVal, List.foldl_append, List.foldl_cons, List.foldl_nil] at hih ⊢
      rw [hih, hd]
      omega

theorem repr_injective : Function.Injective Nat.repr := by
  intro m n h
  have h2 : Nat.toDigitsCore 10 (m + 1) m [] = Nat.toDigitsCore 10 (n + 1) n [] :=
    congrArg String.data h
  have hm := digitsVal_toDigitsCore (m + 1) m (Nat.lt_succ_self m)
  have hn2 := digitsVal_toDigitsCore (n + 1) n (Nat.lt_succ_self n)
  rw [← hm, ← hn2]
  exact congrArg digitsVal h2

theorem blobName_injective : Function.Injective blobName := by
  intro a b h
  apply repr_injective
  have hd := congrArg String.data h
  simp only [blobName, String.data_append] at hd
  have h2 := List.append_cancel_left hd
  cases hr : Nat.repr a with
  | mk l => cases hr2 : Nat.repr b with
    | mk l2 =>
      rw [hr, hr2] at h2
      simp only at h2
      rw [h2]

theorem lookup_append_of_none {α β : Type} [BEq α] (l1 l2 : List (α × β)) (a : α)
    (h : l1.lookup a = none) : (l1 ++ l2).lookup a = l2.lookup a := by
  induction l1 with
  | nil => rfl
  | cons p l ih =>
    rcases p with ⟨k, v⟩
    simp only [List.lookup] at h ⊢
    cases hak : a == k with
    | true =>
      simp only [hak] at h
      exact absurd h (by simp)
    | false =>
      simp only [hak] at h ⊢
      exact ih h

theorem lookup_mem {α β : Type} [BEq α] [LawfulBEq α] (l : List (α × β)) (a : α)
    (v : β) (h : l.lookup a = some v) : a ∈ l.map Prod.fst := by
  induction l with
  | nil => simp [List.lookup] at h
  | cons p l ih =>
    rcases p with ⟨k, w⟩
    simp only [List.lookup] at h
    cases hak : a == k with
    | true =>
      have : a = k := eq_of_beq hak
      simp [this]
    | false =>
      simp only [hak] at h
      simpa using Or.inr (ih h)

theorem lookup_none_not_mem {α β : Type} [BEq α] [LawfulBEq α] (l : List (α × β))
    (a : α) (h : l.lookup a = none) : a ∉ l.map Prod.fst := by
  intro hmem
  induction l with
  | nil => simp at hmem
  | cons p l ih =>
    rcases p with ⟨k, w⟩
    simp only [List.lookup] at h
    cases hak : a == k with
    | true =>
      simp only [hak] at h
      exact absurd h (by simp)
    | false =>
      simp only [hak] at h
      rcases List.mem_cons.mp hmem with heq | hmem2
      · simp only at heq
        rw [heq] at hak
        simp at hak
      · exact ih h hmem2

theorem writeKeys_spec (idx : Nat) : ∀ (keys : List Nat) (t : List Nat),
    t.length = tableSize → keys.Nodup →
    (∀ k ∈ keys, t[k]? = some 0) →
    ∃ t2, writeKeys idx keys t = .ok t2 ∧ t2.length = tableSize ∧
      (∀ k ∈ keys, t2[k]? = some (idx + 1)) ∧
      (∀ k : Nat, k ∉ keys → t2[k]? = t[k]?) := by
  intro keys
  induction keys with
  | nil =>
    intro t hlen _ _
    exact ⟨t, rfl, hlen, by simp, fun k _ => rfl⟩
  | cons k0 rest ih =>
    intro t hlen hnd hz
    have hk0 : t[k0]? = some 0 := hz k0 (List.mem_cons_self _ _)
    have hk0len : k0 < t.length := (List.getElem?_eq_some_iff.mp hk0).1
    have hk0rest : k0 ∉ rest := (List.nodup_cons.mp hnd).1
    rw [writeKeys, hk0]
    obtain ⟨t2, hw, hlen2, hcl, hun⟩ := ih (t.set k0 (idx + 1))
      (by rw [List.length_set]; exact hlen)
      (List.nodup_cons.mp hnd).2
      (fun k hk => by
        rw [List.getElem?_set_ne (fun he => hk0rest (by rw [he]; exact hk))]
        exact hz k (List.mem_cons_of_mem _ hk))
    refine ⟨t2, hw, hlen2, ?_, ?_⟩
    · intro k hk
      rcases List.mem_cons.mp hk with rfl | hk2
      · rw [hun k hk0rest, List.getElem?_set_self hk0len]
      · exact hcl k hk2
    · intro k hk
      rw [hun k (fun h2 => hk (List.mem_cons_of_mem _ h2)),
        List.getElem?_set_ne (fun he => hk (by rw [← he]; exact List.mem_cons_self _ _))]

theorem writeKeys_pos : ∀ (keys : List Nat) (idx : Nat) (t : List Nat) (k v : Nat),
    t[k]? = some (v + 1) → (tableOf (writeKeys idx keys t))[k]? = some (v + 1) := by
  intro keys
  induction keys with
  | nil => intro idx t k v h; exact h
  | cons k0 rest ih =>
    intro idx t k v h
    rw [writeKeys]
    cases hk0 : t[k0]? with
    | none => exact h
    | some w =>
      cases w with
      | zero =>
        have hne : k0 ≠ k := fun he => by rw [he, h] at hk0; cases hk0
        exact ih idx (t.set k0 (idx + 1)) k v
          (by rw [List.getElem?_set_ne hne]; exact h)
      | succ w => exact h

theorem writeKeys_claims : ∀ (keys : List Nat) (idx : Nat) (t t2 : List Nat),
    writeKeys idx keys t = .ok t2 → ∀ k ∈ keys, t2[k]? = some (idx + 1) := by
  intro keys
  induction keys with
  | nil => intro idx t t2 _ k hk; simp at hk
  | cons k0 rest ih =>
    intro idx t t2 hw k hk
    rw [writeKeys] at hw
    cases hk0 : t[k0]? with
    | none => rw [hk0] at hw; cases hw
    | some w =>
      rw [hk0] at hw
      cases w with
      | succ w => exact absurd hw (by simp)
      | zero =>
        simp only at hw
        have hk0len : k0 < t.length := (List.getElem?_eq_some_iff.mp hk0).1
        rcases List.mem_cons.mp hk with rfl | hk2
        · have := writeKeys_pos rest idx (t.set k (idx + 1)) k idx
            (by rw [List.getElem?_set_self hk0len])
          rw [hw] at this
          exact this
        · exact ih idx (t.set k0 (idx + 1)) t2 hw k hk2

theorem buildTableGo_pos : ∀ (pending : List (List Nat)) (idx : Nat)
    (t : List Nat) (k v : Nat),
    t[k]? = some (v + 1) → (tableOf (buildTableGo idx pending t))[k]? = some (v + 1) := by
  intro pending
  induction pending with
  | nil => intro idx t k v h; exact h
  | cons keys rest ih =>
    intro idx t k v h
    rw [buildTableGo]
    cases hw : writeKeys idx keys t with
    | ok t2 =>
      have := writeKeys_pos keys idx t k v h
      rw [hw] at this
      exact ih (idx + 1) t2 k v this
    | error t2 =>
      have := writeKeys_pos keys idx t k v h
      rw [hw] at this
      exact this

theorem buildTableGo_claims : ∀ (pending : List (List Nat)) (idx : Nat)
    (t t2 : List Nat), buildTableGo idx pending t = .ok t2 →
    ∀ (j : Nat) (ks : List Nat) (k : Nat), pending[j]? = some ks → k ∈ ks →
    t2[k]? = some (idx + j + 1) := by
  intro pending
  induction pending with
  | nil => intro idx t t2 _ j ks k hks _; simp at hks
  | cons keys rest ih =>
    intro idx t t2 hgo j ks k hks hk
    rw [buildTableGo] at hgo
    cases hw : writeKeys idx keys t with
    | error t3 => rw [hw] at hgo; cases hgo
    | ok t3 =>
      rw [hw] at hgo
      simp only at hgo
      cases j with
      | zero =>
        simp only [List.getElem?_cons_zero, Option.some.injEq] at hks
        subst hks
        have h3 := writeKeys_claims keys idx t t3 hw k hk
        have := buildTableGo_pos rest (idx + 1) t3 k idx h3
        rw [hgo] at this
        simpa using this
      | succ j2 =>
        simp only [List.getElem?_cons_succ] at hks
        have := ih (idx + 1) t3 t2 hgo j2 ks k hks hk
        rw [show idx + 1 + j2 + 1 = idx + (j2 + 1) + 1 from by omega] at this
        exact this

theorem buildTableGo_spec : ∀ (pending : List (List Nat)) (idx : Nat) (t : List Nat),
    t.length = tableSize →
    (∀ ks ∈ pending, ks.Nodup) →
    pending.Pairwise (fun a b => ∀ k ∈ a, k ∉ b) →
    (∀ ks ∈ pending, ∀ k ∈ ks, t[k]? = some 0) →
    ∃ t2, buildTableGo idx pending t = .ok t2 ∧ t2.length = tableSize ∧
      (∀ (j : Nat) (ks : List Nat) (k : Nat), pending[j]? = some ks → k ∈ ks →
        t2[k]? = some (idx + j + 1)) ∧
      (∀ k : Nat, (∀ ks ∈ pending, k ∉ ks) → t2[k]? = t[k]?) := by
  intro pending
  induction pending with
  | nil =>
    intro idx t hlen _ _ _
    exact ⟨t, rfl, hlen, by intro j ks k hks; simp at hks, fun k _ => rfl⟩
  | cons keys rest ih =>
    intro idx t hlen hnd hdisj hz
    obtain ⟨t3, hw, hlen3, hcl3, hun3⟩ := writeKeys_spec idx keys t hlen
      (hnd keys (List.mem_cons_self _ _))
      (hz keys (List.mem_cons_self _ _))
    have hhead : ∀ ks ∈ rest, ∀ k ∈ keys, k ∉ ks :=
      fun ks hks k hk => (List.pairwise_cons.mp hdisj).1 ks hks k hk
    obtain ⟨t2, hgo, hlen2, hcl2, hun2⟩ := ih (idx + 1) t3 hlen3
      (fun ks hks => hnd ks (List.mem_cons_of_mem _ hks))
      (List.pairwise_cons.mp hdisj).2
      (fun ks hks k hk => by
        rw [hun3 k (fun hkk => hhead ks hks k hkk hk)]
        exact hz ks (List.mem_cons_of_mem _ hks) k hk)
    refine ⟨t2, ?_, hlen2, ?_, ?_⟩
    · rw [buildTableGo, hw]
      exact hgo
    · intro j ks k hks hk
      cases j with
      | zero =>
        simp only [List.getElem?_cons_zero, Option.some.injEq] at hks
        subst hks
        rw [hun2 k (fun ks2 hks2 => hhead ks2 hks2 k hk)]
        simpa using hcl3 k hk
      | succ j2 =>
        simp only [List.getElem?_cons_succ] at hks
        have := hcl2 j2 ks k hks hk
        rw [show idx + 1 + j2 + 1 = idx + (j2 + 1) + 1 from by omega] at this
        exact this
    · intro k hk
      rw [hun2 k (fun ks hks => hk ks (List.mem_cons_of_mem _ hks)),
        hun3 k (hk keys (List.mem_cons_self _ _))]

/-- C7: for a Table Dispatch node whose edges have pairwise-disjoint key
sets (of bytes), `buildTable` succeeds with a dense 256-entry table whose
entry `k` is `i + 1` for every byte `k` of edge `i` and `0` for every
byte claimed by no edge; and the emitted switch routes table value
`i + 1` to edge `i`'s target and value `0` to the otherwise target. -/
theorem table_lookup_correct (edges : List (List Nat))
    (hb : ∀ ks ∈ edges, ∀ k ∈ ks, k < tableSize)
    (hnd : ∀ ks ∈ edges, ks.Nodup)
    (hdisj : edges.Pairwise fun a b => ∀ k ∈ a, k ∉ b) :
    ∃ t, buildTable edges = .ok t ∧ t.length = 256 ∧
      (∀ (i : Nat) (ks : List Nat) (k : Nat), edges[i]? = some ks → k ∈ ks →
        t[k]? = some (i + 1)) ∧
      (∀ k : Nat, k < 256 → (∀ ks ∈ edges, k ∉ ks) → t[k]? = some 0) ∧
      (∀ (targets : List Nat) (ow tg i : Nat), targets[i]? = some tg →
        tableRoute targets ow (i + 1) = tg) ∧
      (∀ (targets : List Nat) (ow : Nat), tableRoute targets ow 0 = ow) := by
  obtain ⟨t, hgo, hlen, hcl, hun⟩ := buildTableGo_spec edges 0
    (List.replicate tableSize 0) (by simp) hnd hdisj
    (fun ks hks k hk => by
      rw [List.getElem?_replicate, if_pos (hb ks hks k hk)])
  refine ⟨t, hgo, hlen, ?_, ?_, ?_, ?_⟩
  · intro i ks k hks hk
    simpa using hcl i ks k hks hk
  · intro k hklt hk
    rw [hun k hk, List.getElem?_replicate, if_pos (show k < tableSize from hklt)]
  · intro targets ow tg i htg
    simp [tableRoute, htg]
  · intro targets ow
    rfl

/-- C7 witness: two disjoint byte-keyed edges build successfully and route
as claimed. -/
theorem table_lookup_correct_witness :
    ∃ t, buildTable [[65], [66, 67]] = .ok t ∧ t.length = 256 ∧
      (∀ (i : Nat) (ks : List Nat) (k : Nat), [[65], [66, 67]][i]? = some ks → k ∈ ks →
        t[k]? = some (i + 1)) ∧
      (∀ k : Nat, k < 256 → (∀ ks ∈ [[65], [66, 67]], k ∉ ks) → t[k]? = some 0) ∧
      (∀ (targets : List Nat) (ow tg i : Nat), targets[i]? = some tg →
        tableRoute targets ow (i + 1) = tg) ∧
      (∀ (targets : List Nat) (ow : Nat), tableRoute targets ow 0 = ow) :=
  table_lookup_correct [[65], [66, 67]] (by decide) (by decide) (by decide)

/-- C8: duplicate byte keys abort table construction with the assertion
failure, while pairwise-disjoint (duplicate-free, byte-valued) key sets
make the assertion branch unreachable and construction always succeed;
moreover no table entry is ever overwritten — any entry written before
processing continues (also into the aborted state) keeps its value. -/
theorem table_duplicate_asserts (edges : List (List Nat)) :
    ((∀ ks ∈ edges, ∀ k ∈ ks, k < tableSize) → (∀ ks ∈ edges, ks.Nodup) →
      edges.Pairwise (fun a b => ∀ k ∈ a, k ∉ b) →
      ∃ t, buildTable edges = .ok t) ∧
    (∀ (i j k : Nat) (ksi ksj : List Nat), i < j →
      edges[i]? = some ksi → edges[j]? = some ksj → k ∈ ksi → k ∈ ksj →
      ∃ e, buildTable edges = .error e) ∧
    (∀ (idx : Nat) (pending : List (List Nat)) (t : List Nat) (k v : Nat),
      t[k]? = some (v + 1) →
      (tableOf (buildTableGo idx pending t))[k]? = some (v + 1)) := by
  refine ⟨?_, ?_, ?_⟩
  · intro hb hnd hdisj
    obtain ⟨t, hgo, _⟩ := buildTableGo_spec edges 0 (List.replicate tableSize 0)
      (by simp) hnd hdisj
      (fun ks hks k hk => by
        rw [List.getElem?_replicate, if_pos (hb ks hks k hk)])
    exact ⟨t, hgo⟩
  · intro i j k ksi ksj hij hksi hksj hki hkj
    cases hbt : buildTable edges with
    | error e => exact ⟨e, rfl⟩
    | ok t =>
      have h1 := buildTableGo_claims edges 0 (List.replicate tableSize 0) t hbt
        i ksi k hksi hki
      have h2 := buildTableGo_claims edges 0 (List.replicate tableSize 0) t hbt
        j ksj k hksj hkj
      rw [h1] at h2
      simp only [Option.some.injEq] at h2
      omega
  · exact fun idx pending t k v h => buildTableGo_pos pending idx t k v h

set_option maxRecDepth 10000 in
/-- C8 witness: `[[65], [66]]` builds, `[[65], [65]]` aborts with the
assertion; in the aborted state the entry for byte 65 still holds the
first edge's claim `1` — it was not overwritten. -/
theorem table_duplicate_asserts_witness :
    (∃ t, buildTable [[65], [66]] = .ok t) ∧
    (∃ e, buildTable [[65], [65]] = .error e) ∧
    (tableOf (buildTable [[65], [65]]))[65]? = some 1 := by
  refine ⟨(table_duplicate_asserts [[65], [66]]).1 (by decide) (by decide) (by decide),
    (table_duplicate_asserts [[65], [65]]).2.1 0 1 65 [65] [65] (by decide)
      (by decide) (by decide) (by decide) (by decide), by decide⟩

/-- C9: callback binding is interned by name — a repeated `buildCode` call
with the identical code object returns the same reference string and adds
nothing to the code map (so the declaration is emitted exactly once by
`buildMethods`), while a call with a different object whose name is
already registered aborts with the fatal name-conflict assertion. -/
theorem buildCode_interning (m : CodeMap) (c c2 : CodeObj) :
    (∀ (m2 : CodeMap) (s : String), buildCode m c = .ok (m2, s) →
      buildCode m2 c = .ok (m2, s) ∧ s = "this._" ++ c.name) ∧
    (m.lookup c.name = some c2 → c2 ≠ c → ∃ e, buildCode m c = .error e) ∧
    (∀ (m2 : CodeMap) (s : String), (buildMethods m).Nodup →
      buildCode m c = .ok (m2, s) →
      (buildMethods m2).Nodup ∧ (buildMethods m2).count c.name = 1) := by
  refine ⟨?_, ?_, ?_⟩
  · intro m2 s h
    rw [buildCode] at h
    cases hl : m.lookup c.name with
    | some c3 =>
      rw [hl] at h
      simp only at h
      by_cases hc : c3 = c
      · rw [if_pos hc] at h
        simp only [Except.ok.injEq, Prod.mk.injEq] at h
        obtain ⟨hm, hs⟩ := h
        subst hm hs
        simp only [buildCode, hl]
        simp [hc]
      · rw [if_neg hc] at h
        cases h
    | none =>
      rw [hl] at h
      simp only [Except.ok.injEq, Prod.mk.injEq] at h
      obtain ⟨hm, hs⟩ := h
      subst hm hs
      have hl2 : (m ++ [(c.name, c)]).lookup c.name = some c :=
        (lookup_append_of_none m [(c.name, c)] c.name hl).trans
          List.lookup_cons_self
      simp only [buildCode, hl2]
      simp
  · intro hl hne
    simp only [buildCode, hl]
    rw [if_neg hne]
    exact ⟨_, rfl⟩
  · intro m2 s hnd h
    rw [buildCode] at h
    cases hl : m.lookup c.name with
    | some c3 =>
      rw [hl] at h
      simp only at h
      by_cases hc : c3 = c
      · rw [if_pos hc] at h
        simp only [Except.ok.injEq, Prod.mk.injEq] at h
        obtain ⟨hm, _⟩ := h
        subst hm
        refine ⟨hnd, List.count_eq_one_of_mem hnd ?_⟩
        exact lookup_mem m c.name c3 hl
      · rw [if_neg hc] at h
        cases h
    | none =>
      rw [hl] at h
      simp only [Except.ok.injEq, Prod.mk.injEq] at h
      obtain ⟨hm, _⟩ := h
      subst hm
      have hnotmem : c.name ∉ buildMethods m := lookup_none_not_mem m c.name hl
      have hkeys : buildMethods (m ++ [(c.name, c)]) = buildMethods m ++ [c.name] := by
        simp [buildMethods]
      rw [hkeys]
      constructor
      · exact List.Nodup.append hnd (List.nodup_singleton _)
          (by intro a ha hb; simp at hb; subst hb; exact hnotmem ha)
      · rw [List.count_append]
        rw [List.count_eq_zero.mpr hnotmem]
        simp

/-- C9 witness: registering `on_url`, a repeated call with the same object
is a no-op returning the same string, the map stays duplicate-free with
one emitted method, and re-binding the name to a different object (a
`match` signature instead of `span`) aborts. -/
theorem buildCode_interning_witness :
    (buildCode [("on_url", ⟨1, "on_url", "span"⟩)] ⟨1, "on_url", "span"⟩ =
      .ok ([("on_url", ⟨1, "on_url", "span"⟩)], "this._on_url") ∧
      "this._on_url" = "this._" ++ "on_url") ∧
    (∃ e, buildCode [("on_url", ⟨1, "on_url", "span"⟩)] ⟨2, "on_url", "match"⟩ =
      .error e) ∧
    ((buildMethods [("on_url", ⟨1, "on_url", "span"⟩)]).Nodup ∧
      (buildMethods [("on_url", ⟨1, "on_url", "span"⟩)]).count "on_url" = 1) := by
  have h := buildCode_interning [] ⟨1, "on_url", "span"⟩ ⟨1, "on_url", "span"⟩
  have h2 := buildCode_interning [("on_url", ⟨1, "on_url", "span"⟩)]
    ⟨2, "on_url", "match"⟩ ⟨1, "on_url", "span"⟩
  refine ⟨h.1 [("on_url", ⟨1, "on_url", "span"⟩)] "this._on_url" rfl,
    h2.2.1 rfl (by decide),
    h.2.2 [("on_url", ⟨1, "on_url", "span"⟩)] "this._on_url" (by decide) rfl⟩

/-- C10: blob interning is by Buffer object identity, not content — a
repeated `blob` call with the same Buffer returns the same generated name
and adds no entry, while two distinct Buffers with byte-equal contents get
two different names (the blob name stem plus the insertion index) and are
emitted by `buildBlobs` as two separate artifacts. -/
theorem blob_interning (m : BlobMap) (b1 b2 : Buf)
    (h1 : m.lookup b1 = none) (h2 : m.lookup b2 = none)
    (hne : b1 ≠ b2) (hcont : b1.content = b2.content) :
    (∀ (mm : BlobMap) (b : Buf) (nm : String), mm.lookup b = some nm →
      blob mm b = (mm, nm)) ∧
    (blob m b1).2 = blobName m.length ∧
    (blob (blob m b1).1 b2).2 = blobName (m.length + 1) ∧
    (blob m b1).2 ≠ (blob (blob m b1).1 b2).2 ∧
    blob (blob (blob m b1).1 b2).1 b1 = ((blob (blob m b1).1 b2).1, (blob m b1).2) ∧
    buildBlobs (blob (blob m b1).1 b2).1 =
      buildBlobs m ++ [(blobName m.length, b1.content), (blobName (m.length + 1), b2.content)] := by
  have hr1 : blob m b1 = (m ++ [(b1, blobName m.length)], blobName m.length) := by
    rw [blob, h1]
  have hlook2 : (m ++ [(b1, blobName m.length)]).lookup b2 = none := by
    rw [lookup_append_of_none m _ b2 h2, List.lookup]
    rw [show (b2 == b1) = false from beq_eq_false_iff_ne.mpr (Ne.symm hne)]
    rfl
  have hlen2 : (m ++ [(b1, blobName m.length)]).length = m.length + 1 := by simp
  have hr2 : blob (m ++ [(b1, blobName m.length)]) b2 =
      (m ++ [(b1, blobName m.length)] ++ [(b2, blobName (m.length + 1))],
        blobName (m.length + 1)) := by
    rw [blob, hlook2, hlen2]
  have hlook3 : (m ++ [(b1, blobName m.length)] ++ [(b2, blobName (m.length + 1))]).lookup b1 =
      some (blobName m.length) := by
    rw [List.append_assoc, lookup_append_of_none m _ b1 h1]
    exact List.lookup_cons_self
  refine ⟨?_, ?_, ?_, ?_, ?_, ?_⟩
  · intro mm b nm hl
    rw [blob, hl]
  · rw [hr1]
  · rw [hr1, hr2]
  · rw [hr1, hr2]
    intro hcontra
    have := blobName_injective hcontra
    omega
  · rw [hr1, hr2]
    simp only
    rw [blob, hlook3]
  · rw [hr1, hr2]
    simp [buildBlobs, hcont]

/-- C10 witness: two distinct Buffers with the same single byte, interned
into an empty pool, get names for indices 0 and 1 and two artifacts; the
repeated call with the first Buffer is a pure lookup. -/
theorem blob_interning_witness :
    (blob [] ⟨1, [65]⟩).2 = blobName 0 ∧
    (blob (blob [] ⟨1, [65]⟩).1 ⟨2, [65]⟩).2 = blobName 1 ∧
    (blob [] ⟨1, [65]⟩).2 ≠ (blob (blob [] ⟨1, [65]⟩).1 ⟨2, [65]⟩).2 ∧
    buildBlobs (blob (blob [] ⟨1, [65]⟩).1 ⟨2, [65]⟩).1 =
      [(blobName 0, [65]), (blobName 1, [65])] := by
  have h := blob_interning [] ⟨1, [65]⟩ ⟨2, [65]⟩ rfl rfl (by decide) rfl
  exact ⟨h.2.1, h.2.2.1, h.2.2.2.1, by simpa using h.2.2.2.2.2⟩

end LLParse
